import Mathlib

/-!
Verification of the glyphs-plist codec: the `Plist` value model, the
old-style plist lexer / recursive-descent parser / canonical serializer
(`src/glyphs_plist/src/plist.rs`), the scalar conversions
(`src/glyphs_plist/src/from_plist.rs`, `src/glyphs_plist/src/to_plist.rs`),
the derive-generated record extraction (`src/glyphs_plist_derive/src/lib.rs`)
and the affine-transform decomposition
(`src/glyphs_plist/src/norad_interop.rs`).

Modelling conventions:
* Rust strings are modelled as `List Char`.  The Rust code scans byte by
  byte, but every byte it treats specially is ASCII, and every byte of a
  multi-byte UTF-8 character falls into the same "other" class as the
  character itself, so the character-level model is faithful.
* `HashMap(String, Plist)` is modelled as an association list kept strictly
  sorted by key (`insertKey` replaces on an existing key, exactly like
  `HashMap::insert`).  Structural equality of the sorted representation
  coincides with `HashMap` equality.
* `i64` is modelled as `Int` with explicit range checks where the code
  checks them, `f64` as `ℚ` for finite values: all finite floating-point
  values relevant to the claims below are exact decimal values on which
  every operation the code performs is exact, so the rational model agrees
  with IEEE `f64` there.  The non-finite `f64` payloads a `Float` can
  carry are the dedicated constructors `Plist.nanF` and `Plist.infF`
  (signed), produced by `str::parse::<f64>` on the inf / nan forms
  (`f64Accepts` is the full acceptance grammar, `parseF64val` the finite
  forms with their exact value).  Rust's derived `PartialEq` — IEEE
  equality at `Float`, so false at NaN — is `plistEq`; Lean's structural
  `=` coincides with it on NaN-free values.
* The recursive-descent parser `Plist::parse_rec` recurses on the input
  suffix; the model adds an explicit fuel argument, decremented on every
  (mutual) recursive call, and `Plist.parse` supplies `2 * length + 2`
  fuel, which over-counts the at most two decrements ever spent per
  consumed input character.
-/

/-! ## The value model (`enum Plist`, plist.rs lines 7-14) -/

/-- Mirror of `enum Plist`.  `Dictionary(HashMap(String, Plist))` is the
sorted association list, `Integer(i64)` is `Int`, and the `Float(f64)`
payload is partitioned into its three IEEE shapes: a finite value
(`float`, exact as `ℚ`), a NaN (`nanF`), or a signed infinity
(`infF`). -/
inductive Plist where
  | dict (entries : List (List Char × Plist))
  | arr (elements : List Plist)
  | str (s : List Char)
  | int (n : Int)
  | float (q : ℚ)
  | nanF
  | infF (neg : Bool)

/-! ## Character classes (plist.rs lines 44-72) -/

/-- Character constant, used instead of literals the file avoids. -/
def quoteChar : Char := Char.ofNat 34

/-- Backslash. -/
def bslashChar : Char := Char.ofNat 92

/-- Opening curly brace. -/
def obraceChar : Char := Char.ofNat 123

/-- Closing curly brace. -/
def cbraceChar : Char := Char.ofNat 125

/-- Newline. -/
def nlChar : Char := Char.ofNat 10

/-- Carriage return. -/
def crChar : Char := Char.ofNat 13

/-- Horizontal tab. -/
def tabChar : Char := Char.ofNat 9

/-- Mirror of `fn is_numeric` (plist.rs line 44). -/
def is_numeric (c : Char) : Bool :=
  c.isDigit || c = '.' || c = '-'

/-- Mirror of `fn is_alnum` (plist.rs line 48). -/
def is_alnum (c : Char) : Bool :=
  is_numeric c || c.isUpper || c.isLower || c = '_' || c = '$' || c = '/'
    || c = ':' || c = '.' || c = '-'

/-- Mirror of `fn is_alnum_strict` (plist.rs line 62). -/
def is_alnum_strict (c : Char) : Bool :=
  is_alnum c && !(c = '-')

/-- Mirror of `fn is_hex_upper` (plist.rs line 66). -/
def is_hex_upper (c : Char) : Bool :=
  c.isDigit || ('A' ≤ c && c ≤ 'F')

/-- Mirror of `fn is_ascii_whitespace` (plist.rs line 70). -/
def is_ascii_whitespace (c : Char) : Bool :=
  c = ' ' || c = tabChar || c = crChar || c = nlChar

/-- Mirror of `fn numeric_ok` (plist.rs lines 74-86). -/
def numeric_ok (s : List Char) : Bool :=
  match s with
  | [] => false
  | c :: cs =>
    if (c :: cs).all is_hex_upper && !((c :: cs).all Char.isDigit) then
      false
    else if cs.length + 1 > 1 && c = '0' then
      !((c :: cs).all Char.isDigit)
    else
      true

/-- Mirror of `fn skip_ws` (plist.rs lines 88-93); the model returns the
remaining suffix instead of an index. -/
def skip_ws (s : List Char) : List Char :=
  s.dropWhile is_ascii_whitespace

/-! ## Numeric literal parsing (`str::parse::<i64>` and `str::parse::<f64>`)

`Plist::parse_atom` calls Rust's standard numeric parsers.  `parseI64`
implements `i64::from_str`: an optional sign followed by one or more
decimal digits, rejecting out-of-range values.  `parseF64val` implements
the finite part of `f64::from_str`'s documented grammar
(`Digit+ | Digit+ '.' Digit* | '.' Digit+`, optional exponent), returning
the exact rational value; `f64Accepts` is the full acceptance test,
additionally recognising the case-insensitive `inf`/`infinity`/`nan`
forms, whose values lie outside the rational model. -/

/-- Numeric value of a decimal digit character. -/
def digitVal (c : Char) : Nat := c.toNat - 48

/-- Value of a digit string, most significant digit first. -/
def natVal (s : List Char) : Nat :=
  s.foldl (fun a c => a * 10 + digitVal c) 0

/-- Parse a non-empty all-digit string. -/
def parseNatDigits (s : List Char) : Option Nat :=
  if s.isEmpty then none
  else if s.all Char.isDigit then some (natVal s) else none

/-- `i64::MAX`. -/
def i64Max : Int := 2 ^ 63 - 1

/-- `i64::MIN`. -/
def i64Min : Int := -(2 ^ 63)

/-- The digits-and-range-check core of `i64::from_str`. -/
def parseI64core (neg : Bool) (ds : List Char) : Option Int :=
  (parseNatDigits ds).bind fun n =>
    let v : Int := cond neg (-(n : Int)) (n : Int)
    if i64Min ≤ v ∧ v ≤ i64Max then some v else none

/-- Mirror of `str::parse::<i64>`: optional sign, digits, range check. -/
def parseI64 (s : List Char) : Option Int :=
  match s with
  | [] => none
  | c :: r =>
    if c = '-' then parseI64core true r
    else if c = '+' then parseI64core false r
    else parseI64core false (c :: r)

/-- Split a float literal at the first exponent marker (`e` or `E`). -/
def splitMantExp (s : List Char) : List Char × Option (List Char) :=
  match s with
  | [] => ([], none)
  | c :: r =>
    if c = 'e' ∨ c = 'E' then ([], some r)
    else
      let (m, e) := splitMantExp r
      (c :: m, e)

/-- Parse the mantissa part (`Digit+ | Digit+ '.' Digit* | '.' Digit+`),
returning the digits' value and the number of fractional digits. -/
def parseMantissa (s : List Char) : Option (Nat × Nat) :=
  let intPart := s.takeWhile Char.isDigit
  let rest := s.dropWhile Char.isDigit
  match rest with
  | [] => if intPart.isEmpty then none else some (natVal intPart, 0)
  | '.' :: frac =>
    if frac.all Char.isDigit && !(intPart.isEmpty && frac.isEmpty) then
      some (natVal (intPart ++ frac), frac.length)
    else none
  | _ => none

/-- Parse an exponent part (after `e`/`E`): optional sign, digits. -/
def parseExp (s : List Char) : Option Int :=
  match s with
  | [] => none
  | c :: r =>
    if c = '-' then (parseNatDigits r).map (fun n => -(n : Int))
    else if c = '+' then (parseNatDigits r).map Int.ofNat
    else (parseNatDigits (c :: r)).map Int.ofNat

/-- Split off an optional leading sign: `(negative, rest)`. -/
def splitSign (s : List Char) : Bool × List Char :=
  match s with
  | [] => (false, [])
  | c :: r =>
    if c = '-' then (true, r)
    else if c = '+' then (false, r)
    else (false, c :: r)

/-- Value of an unsigned finite `f64` literal: mantissa, optional
exponent. -/
def parseF64core (s₁ : List Char) : Option ℚ :=
  let (mant, expPart) := splitMantExp s₁
  match parseMantissa mant,
        (match expPart with
         | none => some (0 : Int)
         | some es => parseExp es) with
  | some (mval, flen), some e =>
    some ((mval : ℚ) * (10 : ℚ) ^ (e - (flen : Int)))
  | _, _ => none

/-- Exact value of a finite `f64` literal, when the text matches the
finite part of the `f64::from_str` grammar. -/
def parseF64val (s : List Char) : Option ℚ :=
  let (neg, s₁) := splitSign s
  (parseF64core s₁).map fun q => cond neg (-q) q

/-- Case-insensitive `inf` / `infinity` / `nan` (sign already stripped). -/
def isInfNan (s : List Char) : Bool :=
  let l := s.map Char.toLower
  l = ['i', 'n', 'f'] || l = ['i', 'n', 'f', 'i', 'n', 'i', 't', 'y']
    || l = ['n', 'a', 'n']

/-- Mirror of `s.parse::<f64>().is_ok()`: the finite grammar plus the
special inf / nan forms. -/
def f64Accepts (s : List Char) : Bool :=
  isInfNan (splitSign s).2 || (parseF64val s).isSome

/-- Mirror of `Plist::parse_atom` (plist.rs lines 257-267): gate on
`numeric_ok`, then try `i64`, then `f64`, else a string.  The single
`s.parse::<f64>()` of the code accepts the finite grammar (value
`parseF64val`) and the case-insensitive signed `inf`/`infinity`/`nan`
forms (`isInfNan`), which build the non-finite `Float` payloads; the
two acceptance sets are disjoint, so they are tried in either order. -/
def parse_atom (s : List Char) : Plist :=
  if numeric_ok s then
    match parseI64 s with
    | some n => .int n
    | none =>
      match parseF64val s with
      | some q => .float q
      | none =>
        if isInfNan (splitSign s).2 then
          if (splitSign s).2.map Char.toLower = ['n', 'a', 'n'] then .nanF
          else .infF (splitSign s).1
        else .str s
  else .str s

/-! ## Tokens and the lexer (plist.rs lines 36-42 and 302-408) -/

/-- Mirror of `enum Token`. -/
inductive Tok where
  | eof
  | openBrace
  | openParen
  | str (s : List Char)
  | atom (s : List Char)

/-- Mirror of `enum Error` (plist.rs lines 16-34). -/
inductive PErr where
  | unexpectedChar (c : Char)
  | unclosedString
  | unknownEscape
  | notAString
  | expectedEquals
  | expectedComma
  | expectedSemicolon
  | somethingWentWrong
deriving DecidableEq

/-- The body of the quoted-string arm of `Token::lex` (plist.rs lines
312-373): scan to the closing quote, decoding the `\"`, `\\`, `\n`, `\r`
and three-digit octal escapes. -/
def lexQuotedBody : List Char → List Char →
    Except PErr (List Char × List Char)
  | [], _ => .error .unclosedString
  | c :: r, buf =>
    if c = quoteChar then .ok (buf, r)
    else if c = bslashChar then
      match r with
      | [] => .error .unclosedString
      | e :: r₂ =>
        if e = quoteChar ∨ e = bslashChar then lexQuotedBody r₂ (buf ++ [e])
        else if e = 'n' then lexQuotedBody r₂ (buf ++ [nlChar])
        else if e = 'r' then lexQuotedBody r₂ (buf ++ [crChar])
        else if '0' ≤ e ∧ e ≤ '3' then
          match r₂ with
          | b₁ :: b₂ :: r₃ =>
            if ('0' ≤ b₁ ∧ b₁ ≤ '7') ∧ ('0' ≤ b₂ ∧ b₂ ≤ '7') then
              lexQuotedBody r₃
                (buf ++ [Char.ofNat
                  ((e.toNat - 48) * 64 + (b₁.toNat - 48) * 8 + (b₂.toNat - 48))])
            else .error .unknownEscape
          | _ => .error .unknownEscape
        else .error .unknownEscape
    else lexQuotedBody r (buf ++ [c])

/-- The dispatch on the first significant character of `Token::lex`. -/
def lexCore : List Char → Except PErr (Tok × List Char)
  | [] => .ok (.eof, [])
  | c :: r =>
    if c = obraceChar then .ok (.openBrace, r)
    else if c = '(' then .ok (.openParen, r)
    else if c = quoteChar then
      (lexQuotedBody r []).map fun p => (.str p.1, p.2)
    else if is_alnum c then
      .ok (.atom (c :: r.takeWhile is_alnum), r.dropWhile is_alnum)
    else .error (.unexpectedChar c)

/-- Mirror of `Token::lex` (plist.rs lines 303-389). -/
def lex (s : List Char) : Except PErr (Tok × List Char) :=
  lexCore (skip_ws s)

/-- Mirror of `Token::expect` (plist.rs lines 399-408). -/
def expectTok (s : List Char) (delim : Char) : Option (List Char) :=
  match skip_ws s with
  | c :: r => if c = delim then some r else none
  | [] => none

/-- Mirror of `Token::try_into_string` (plist.rs lines 391-397). -/
def tryIntoString (t : Tok) : Except PErr (List Char) :=
  match t with
  | .atom s => .ok s
  | .str s => .ok s
  | _ => .error .notAString

/-! ## The sorted association map modelling `HashMap(String, Plist)` -/

/-- Strict byte-lexicographic order on keys, the order `keys.sort()` uses
in `push_to_string` (UTF-8 byte order coincides with code-point order). -/
def keyLt : List Char → List Char → Bool
  | [], [] => false
  | [], _ :: _ => true
  | _ :: _, [] => false
  | a :: as, b :: bs =>
    if a < b then true
    else if b < a then false
    else keyLt as bs

/-- `HashMap::insert`: replace the binding of an existing key, keeping the
canonical strictly-sorted representation. -/
def insertKey (m : List (List Char × Plist)) (k : List Char) (v : Plist) :
    List (List Char × Plist) :=
  match m with
  | [] => [(k, v)]
  | (k₀, v₀) :: t =>
    if keyLt k k₀ then (k, v) :: (k₀, v₀) :: t
    else if k = k₀ then (k, v) :: t
    else (k₀, v₀) :: insertKey t k v

/-- `HashMap::remove`: drop the binding of a key, returning it. -/
def removeKey (m : List (List Char × Plist)) (k : List Char) :
    Option Plist × List (List Char × Plist) :=
  match m with
  | [] => (none, [])
  | (k₀, v₀) :: t =>
    if k = k₀ then (some v₀, t)
    else
      let (r, t₂) := removeKey t k
      (r, (k₀, v₀) :: t₂)

/-- `HashMap::get`. -/
def lookupKey (m : List (List Char × Plist)) (k : List Char) : Option Plist :=
  match m with
  | [] => none
  | (k₀, v₀) :: t => if k = k₀ then some v₀ else lookupKey t k

/-- Fold a pair list into a map with `insertKey`, left to right: the
contents of the `HashMap` a sequence of `insert` calls builds. -/
def buildMap (ps : List (List Char × Plist)) : List (List Char × Plist) :=
  ps.foldl (fun m kv => insertKey m kv.1 kv.2) []

/-! ## The recursive-descent parser (`Plist::parse_rec`, plist.rs 209-255) -/

mutual

/-- Mirror of `Plist::parse_rec`, with explicit fuel. -/
def parseRec : Nat → List Char → Except PErr (Plist × List Char)
  | 0, _ => .error .somethingWentWrong
  | fuel + 1, s =>
    match lex s with
    | .error e => .error e
    | .ok (t, r) =>
      match t with
      | .atom a => .ok (parse_atom a, r)
      | .str a => .ok (.str a, r)
      | .openBrace => parseDictLoop fuel r []
      | .openParen =>
        match expectTok r ')' with
        | some r₂ => .ok (.arr [], r₂)
        | none => parseArrayLoop fuel r []
      | .eof => .error .somethingWentWrong

/-- The dictionary pair loop inside `Plist::parse_rec` (plist.rs 214-234):
`key = value ;` pairs accumulated by `HashMap::insert` until `}`. -/
def parseDictLoop : Nat → List Char → List (List Char × Plist) →
    Except PErr (Plist × List Char)
  | 0, _, _ => .error .somethingWentWrong
  | fuel + 1, s, acc =>
    match expectTok s cbraceChar with
    | some r => .ok (.dict acc, r)
    | none =>
      match lex s with
      | .error e => .error e
      | .ok (keyTok, s₂) =>
        match tryIntoString keyTok with
        | .error e => .error e
        | .ok k =>
          match expectTok s₂ '=' with
          | none => .error .expectedEquals
          | some s₃ =>
            match parseRec fuel s₃ with
            | .error e => .error e
            | .ok (v, s₄) =>
              match expectTok s₄ ';' with
              | some s₅ => parseDictLoop fuel s₅ (insertKey acc k v)
              | none => .error .expectedSemicolon

/-- The array element loop inside `Plist::parse_rec` (plist.rs 235-252):
comma-separated values until `)` (the empty-array check precedes the
loop, in `parseRec`). -/
def parseArrayLoop : Nat → List Char → List Plist →
    Except PErr (Plist × List Char)
  | 0, _, _ => .error .somethingWentWrong
  | fuel + 1, s, acc =>
    match parseRec fuel s with
    | .error e => .error e
    | .ok (v, s₂) =>
      match expectTok s₂ ')' with
      | some r => .ok (.arr (acc ++ [v]), r)
      | none =>
        match expectTok s₂ ',' with
        | some s₃ => parseArrayLoop fuel s₃ (acc ++ [v])
        | none => .error .expectedComma

end

/-- Mirror of `Plist::parse` (plist.rs lines 137-141): parse one value,
ignoring whatever follows it.  The fuel `2 * length + 2` dominates the at
most two fuel decrements per consumed character, so it never runs out on
an input the Rust parser accepts. -/
def Plist.parse (s : List Char) : Except PErr Plist :=
  (parseRec (2 * s.length + 2) s).map Prod.fst

/-! ## Serialization (`Plist::push_to_string`, plist.rs lines 269-299) -/

/-- Decimal digits of a natural number, most significant first
(`u64` formatting). -/
def natToChars (n : Nat) : List Char :=
  if h : n < 10 then [Char.ofNat (48 + n)]
  else natToChars (n / 10) ++ [Char.ofNat (48 + n % 10)]
termination_by n
decreasing_by exact Nat.div_lt_self (by omega) (by omega)

/-- `i64` `Display` formatting: optional minus sign, decimal digits. -/
def intToChars (n : Int) : List Char :=
  if n < 0 then '-' :: natToChars n.natAbs else natToChars n.natAbs

/-- The least `k` with `d ∣ 10 ^ k`, searched up to `d` (for a reduced
denominator of a decimal rational the bound always suffices). -/
def tenPowIndex (d : Nat) : Nat :=
  match (List.range (d + 1)).find? (fun k => decide (d ∣ 10 ^ k)) with
  | some k => k
  | none => 0

/-- Left-pad a digit string with zeros to width `k`. -/
def padZeros (ds : List Char) (k : Nat) : List Char :=
  List.replicate (k - ds.length) '0' ++ ds

/-- `f64` `Display` formatting on the rational model: positional decimal
notation, shortest digits, no trailing zeros, no decimal point for an
integral value (Rust prints `100000.0_f64` as `"100000"`). -/
def displayFloat (q : ℚ) : List Char :=
  if q.den = 1 then intToChars q.num
  else
    let k := tenPowIndex q.den
    let scaled : Nat := q.num.natAbs * (10 ^ k / q.den)
    let ip := scaled / 10 ^ k
    let fp := scaled % 10 ^ k
    (if q.num < 0 then ['-'] else []) ++
      natToChars ip ++ ['.'] ++ padZeros (natToChars fp) k

/-- The escaped body of a quoted string: `"` and `\` get a backslash
prefix, everything else is copied (plist.rs lines 108-124). -/
def escapeBody (s : List Char) : List Char :=
  match s with
  | [] => []
  | c :: t =>
    (if c = quoteChar ∨ c = bslashChar then [bslashChar, c] else [c])
      ++ escapeBody t

/-- Mirror of `fn escape_string` (plist.rs lines 95-126): non-empty
all-`is_alnum_strict` strings stay bare unless `str::parse::<f64>` would
accept them; everything else is quoted with `"` and `\` escaped. -/
def escape_string (s : List Char) : List Char :=
  if !s.isEmpty && s.all is_alnum_strict then
    if f64Accepts s then quoteChar :: (s ++ [quoteChar]) else s
  else quoteChar :: (escapeBody s ++ [quoteChar])

mutual

/-- Canonicalize dictionaries: sort-and-deduplicate every dictionary's
entries via `buildMap`, the contents of the corresponding `HashMap`.
(The Rust `Dictionary` holds a `HashMap`, which cannot hold duplicates;
on the sorted association-list representation this is the identity, see
`canonicalize_eq_of_parsedWF` below.) -/
def canonicalize : Plist → Plist
  | .dict d => .dict (buildMap (canonPairs d))
  | .arr a => .arr (canonList a)
  | .str s => .str s
  | .int n => .int n
  | .float q => .float q
  | .nanF => .nanF
  | .infF b => .infF b

/-- Canonicalize the values of a pair list. -/
def canonPairs : List (List Char × Plist) → List (List Char × Plist)
  | [] => []
  | (k, v) :: t => (k, canonicalize v) :: canonPairs t

/-- Canonicalize the elements of a list. -/
def canonList : List Plist → List Plist
  | [] => []
  | v :: t => canonicalize v :: canonList t

end

mutual

/-- Mirror of `Plist::push_to_string` (plist.rs lines 269-299), returning
the pushed text.  Dictionary entries are emitted in sorted key order; on
the canonical representation (any value the parser produces, or the image
of `canonicalize`) the entry list already is the sorted `keys.sort()`
order the code iterates in. -/
def pushToString : Plist → List Char
  | .arr a => '(' :: (pushArrayItems a true ++ [nlChar, ')'])
  | .dict d => obraceChar :: nlChar :: (pushPairs d ++ [cbraceChar])
  | .str st => escape_string st
  | .int i => intToChars i
  | .float f => displayFloat f
  | .nanF => ['N', 'a', 'N']
  | .infF neg => if neg then ['-', 'i', 'n', 'f'] else ['i', 'n', 'f']

/-- The array element loop of `push_to_string`: `\n` before the first
element, `,\n` before the rest. -/
def pushArrayItems : List Plist → Bool → List Char
  | [], _ => []
  | v :: t, first =>
    (if first then [nlChar] else [',', nlChar]) ++ pushToString v
      ++ pushArrayItems t false

/-- The dictionary pair loop of `push_to_string`:
`key = value;\n` for each pair. -/
def pushPairs : List (List Char × Plist) → List Char
  | [] => []
  | (k, v) :: t =>
    escape_string k ++ [' ', '=', ' '] ++ pushToString v ++ [';', nlChar]
      ++ pushPairs t

end

/-- `Plist` to canonical text: `Display for Plist` (plist.rs lines
128-134).  `canonicalize` realizes the `keys.sort()` of the dictionary
`HashMap`s on the association-list representation. -/
def Plist.toText (v : Plist) : List Char :=
  pushToString (canonicalize v)

/-! ## A specification companion to the dictionary loop

`parsePairsLoop` runs the exact control flow of `parseDictLoop` but
records the `key = value ;` pairs in textual order instead of folding
them into the map, exposing the sequence of `HashMap::insert` calls the
code performs. -/

/-- The pair sequence scanned by the dictionary loop, in textual order. -/
def parsePairsLoop : Nat → List Char → List (List Char × Plist) →
    Except PErr (List (List Char × Plist) × List Char)
  | 0, _, _ => .error .somethingWentWrong
  | fuel + 1, s, acc =>
    match expectTok s cbraceChar with
    | some r => .ok (acc, r)
    | none =>
      match lex s with
      | .error e => .error e
      | .ok (keyTok, s₂) =>
        match tryIntoString keyTok with
        | .error e => .error e
        | .ok k =>
          match expectTok s₂ '=' with
          | none => .error .expectedEquals
          | some s₃ =>
            match parseRec fuel s₃ with
            | .error e => .error e
            | .ok (v, s₄) =>
              match expectTok s₄ ';' with
              | some s₅ => parsePairsLoop fuel s₅ (acc ++ [(k, v)])
              | none => .error .expectedSemicolon

/-- The pair sequence of a top-level dictionary text, with the same fuel
`Plist.parse` hands the dictionary loop. -/
def parsePairsOfDict (s : List Char) :
    Except PErr (List (List Char × Plist)) :=
  match lex s with
  | .ok (.openBrace, r) => (parsePairsLoop (2 * s.length + 1) r []).map Prod.fst
  | _ => .error .somethingWentWrong

/-- The value of the last `key = value ;` pair with the given key, if
any: what "last occurrence wins" binds the key to. -/
def lastBinding (ps : List (List Char × Plist)) (k : List Char) :
    Option Plist :=
  (ps.reverse.find? (fun kv => decide (kv.1 = k))).map Prod.snd

/-! ## Scalar conversions (from_plist.rs, to_plist.rs) -/

/-- Mirror of `Plist::as_i64` (plist.rs lines 173-178). -/
def Plist.as_i64 : Plist → Option Int
  | .int n => some n
  | _ => none

/-- Mirror of `Plist::as_f64` (plist.rs lines 180-186): an integer is
widened, a float is returned as is. -/
def Plist.as_f64 : Plist → Option ℚ
  | .int n => some (n : ℚ)
  | .float q => some q
  | _ => none

/-- Mirror of `enum BoolConversionError` (from_plist.rs lines 48-54). -/
inductive BoolConversionError where
  | wrongVariant
  | badNumber (n : Int)
deriving DecidableEq

/-- Mirror of `TryFrom(Plist) for bool` (from_plist.rs lines 56-69). -/
def boolTryFrom (p : Plist) : Except BoolConversionError Bool :=
  match p.as_i64 with
  | none => .error .wrongVariant
  | some n =>
    match n with
    | 0 => .ok false
    | 1 => .ok true
    | n => .error (.badNumber n)

/-- Mirror of `ToPlist for bool` (to_plist.rs lines 31-35):
`(self as i64).into()`. -/
def boolToPlist (b : Bool) : Plist :=
  .int (if b then 1 else 0)

/-- Mirror of `enum DownsizeToU16Error` (from_plist.rs lines 102-108). -/
inductive DownsizeToU16Error where
  | wrongVariant
  | outOfBounds (n : Int)
deriving DecidableEq

/-- Mirror of `TryFrom(Plist) for u16` (from_plist.rs lines 110-121):
only an `Integer` in `u16` range converts; the `u16` result is kept as
the mathematical integer. -/
def u16TryFrom (p : Plist) : Except DownsizeToU16Error Int :=
  match p with
  | .int n => if 0 ≤ n ∧ n ≤ 65535 then .ok n else .error (.outOfBounds n)
  | _ => .error .wrongVariant

/-- `f64::EPSILON` is `2 ^ (-52)`. -/
def f64Epsilon : ℚ := 1 / 2 ^ 52

/-- `f64::round`: round half away from zero, exact on the rational
model. -/
def roundTiesAway (q : ℚ) : Int :=
  if 0 ≤ q then ⌊q + 1 / 2⌋ else -⌊-q + 1 / 2⌋

/-- An `f64 as i64` cast saturates at the `i64` range bounds. -/
def i64Sat (z : Int) : Int :=
  if z < i64Min then i64Min else if i64Max < z then i64Max else z

/-- Mirror of `ToPlist for f64` (to_plist.rs lines 49-58): a float whose
distance to its rounding is below `f64::EPSILON` is narrowed to
`Integer`, otherwise kept as `Float`. -/
def f64ToPlist (q : ℚ) : Plist :=
  if |q - (roundTiesAway q : ℚ)| < f64Epsilon then
    .int (i64Sat (roundTiesAway q))
  else .float q

/-! ## The derive-generated record conversions (glyphs_plist_derive)

`#[derive(FromPlist)]` expands, per record, to: take the dictionary's
map, `remove` each declared field's wire key and convert it, then either
hand the remaining map to the `#[plist(rest)]` field (lines 299-327) or
`assert!` that it is empty (line 177).  `#[derive(ToPlist)]` starts from
the rest field's contents (or an empty map, lines 400-420) and inserts
each emitted field.  The model instantiates the generated code for the
record shapes the claims use and states the key-preservation parts
generically. -/

/-- Mirror of `enum GlyphsFromPlistError` (font.rs lines 1369-1412),
restricted to the variants the modelled records can produce. -/
inductive GlyphsFromPlistError where
  | missingField (name : List Char)
  | unrecognisedFields (names : List (List Char))

/-- The observable outcome of running generated decode code: a value, a
returned error, or a `panic!`/`assert!` process abort. -/
inductive DecodeOutcome (α : Type) where
  | ok (a : α)
  | err (e : GlyphsFromPlistError)
  | panic

/-- The rest-removal phase of generated decoding: `hashmap.remove` for
each declared wire key, in declaration order (derive lib.rs lines
244-293); what is left is what a `#[plist(rest)]` field receives. -/
def removeFields (declared : List (List Char)) (m : List (List Char × Plist)) :
    List (List Char × Plist) :=
  declared.foldl (fun acc k => (removeKey acc k).2) m

/-- The serialization phase of generated encoding: start from the rest
field's map (derive lib.rs lines 400-420) and insert each field the
field loop decides to emit (lines 352-389). -/
def serMerge (rest : List (List Char × Plist))
    (fields : List (List Char × Option Plist)) : List (List Char × Plist) :=
  fields.foldl
    (fun acc kv =>
      match kv.2 with
      | some p => insertKey acc kv.1 p
      | none => acc)
    rest

/-- A record with one declared field `foo: Plist` marked
`#[plist(always_serialise)]` and a `#[plist(rest)]` map, the shape of
property 4's rest-capture record. -/
structure FooBarRest where
  foo : Plist
  rest : List (List Char × Plist)

/-- The generated `TryFrom(Plist)` for `FooBarRest` on the dictionary's
map: remove `foo` (required, so absent is `MissingField`), hand the
remainder to `rest` (derive lib.rs lines 261-270 and 299-327). -/
def fooBarRestTryFrom (m : List (List Char × Plist)) :
    Except GlyphsFromPlistError FooBarRest :=
  match removeKey m ['f', 'o', 'o'] with
  | (some p, m₂) => .ok { foo := p, rest := m₂ }
  | (none, _) => .error (.missingField ['f', 'o', 'o'])

/-- The generated `ToPlist` for `FooBarRest`: the map starts as
`self.rest` and the always-serialised `foo` is inserted (derive lib.rs
lines 351-356 and 416-419). -/
def fooBarRestToPlist (r : FooBarRest) : List (List Char × Plist) :=
  insertKey r.rest ['f', 'o', 'o'] r.foo

/-- A record with one declared field `foo: String` and no rest field,
the shape of the `error_on_unexpected_fields` test (font.rs lines
1512-1530). -/
structure FooBarNoRest where
  foo : List Char

/-- The generated `TryFrom(Plist)` for `FooBarNoRest`: remove and
convert `foo` (the `String` conversion panics on a non-string, via
`Plist::into_string`), then `assert!(hashmap.is_empty(), ...)` — a
process abort, not an `Err` (derive lib.rs line 177). -/
def fooBarNoRestTryFrom (m : List (List Char × Plist)) :
    DecodeOutcome FooBarNoRest :=
  match removeKey m ['f', 'o', 'o'] with
  | (some p, m₂) =>
    match p with
    | .str s => if m₂.isEmpty then .ok { foo := s } else .panic
    | _ => .panic
  | (none, _) => .err (.missingField ['f', 'o', 'o'])

/-! ## Well-formedness of parser-produced values -/

/-- Keys strictly ascending in `keyLt`: the canonical sorted map shape. -/
def sortedKeysB : List (List Char × Plist) → Bool
  | [] => true
  | [_] => true
  | (k₁, _) :: (k₂, v₂) :: t =>
    keyLt k₁ k₂ && sortedKeysB ((k₂, v₂) :: t)

mutual

/-- Invariants every value produced by `Plist.parse` satisfies: every
dictionary is a canonical (strictly sorted) map, every integer is in
`i64` range, every float's reduced denominator divides a power of ten
(it came from a decimal literal). -/
def parsedWF : Plist → Bool
  | .dict d => sortedKeysB d && parsedWFPairs d
  | .arr a => parsedWFList a
  | .str _ => true
  | .int n => decide (i64Min ≤ n ∧ n ≤ i64Max)
  | .float q => decide (q.den ∣ 10 ^ q.den)
  | .nanF => true
  | .infF _ => true

/-- `parsedWF` on every value of a pair list. -/
def parsedWFPairs : List (List Char × Plist) → Bool
  | [] => true
  | (_, v) :: t => parsedWF v && parsedWFPairs t

/-- `parsedWF` on every element of a list. -/
def parsedWFList : List Plist → Bool
  | [] => true
  | v :: t => parsedWF v && parsedWFList t

end

mutual

/-- No `Float` subvalue is integer-valued.  (The serializer prints an
integer-valued float without a decimal point, so re-parsing reclassifies
it as `Integer`; this predicate carves out the values on which the
round trip is exact.) -/
def noIntFloat : Plist → Bool
  | .dict d => noIntFloatPairs d
  | .arr a => noIntFloatList a
  | .str _ => true
  | .int _ => true
  | .float q => decide (q.den ≠ 1)
  | .nanF => true
  | .infF _ => true

/-- `noIntFloat` on every value of a pair list. -/
def noIntFloatPairs : List (List Char × Plist) → Bool
  | [] => true
  | (_, v) :: t => noIntFloat v && noIntFloatPairs t

/-- `noIntFloat` on every element of a list. -/
def noIntFloatList : List Plist → Bool
  | [] => true
  | v :: t => noIntFloat v && noIntFloatList t

end

mutual

/-- No `Float` subvalue is a NaN.  (NaN is the one payload on which the
derived `PartialEq` — IEEE equality at `Float` — denies `v == v`, so the
textual round trip cannot return a value `==`-equal to it.) -/
def noNanF : Plist → Bool
  | .dict d => noNanFPairs d
  | .arr a => noNanFList a
  | .str _ => true
  | .int _ => true
  | .float _ => true
  | .nanF => false
  | .infF _ => true

/-- `noNanF` on every value of a pair list. -/
def noNanFPairs : List (List Char × Plist) → Bool
  | [] => true
  | (_, v) :: t => noNanF v && noNanFPairs t

/-- `noNanF` on every element of a list. -/
def noNanFList : List Plist → Bool
  | [] => true
  | v :: t => noNanF v && noNanFList t

end

mutual

/-- The derived `PartialEq for Plist`: componentwise, with IEEE `f64`
equality at `Float` — equal finite values are equal rationals, equal
infinities have equal signs, and NaN is equal to nothing, itself
included.  (`Dictionary` holds a `HashMap`, whose `PartialEq` is
key-set equality with `==`-equal values; on the canonical strictly
sorted association lists the parser and serializer exchange, that is
the componentwise comparison stated here.) -/
def plistEq : Plist → Plist → Bool
  | .dict d, .dict d₂ => plistEqPairs d d₂
  | .arr a, .arr a₂ => plistEqList a a₂
  | .str s, .str s₂ => decide (s = s₂)
  | .int n, .int n₂ => decide (n = n₂)
  | .float q, .float q₂ => decide (q = q₂)
  | .infF b, .infF b₂ => decide (b = b₂)
  | _, _ => false

/-- `plistEq` on pair lists, keys and values both. -/
def plistEqPairs : List (List Char × Plist) → List (List Char × Plist) →
    Bool
  | [], [] => true
  | (k, v) :: t, (k₂, v₂) :: t₂ =>
    decide (k = k₂) && plistEq v v₂ && plistEqPairs t t₂
  | _, _ => false

/-- `plistEq` elementwise. -/
def plistEqList : List Plist → List Plist → Bool
  | [], [] => true
  | v :: t, v₂ :: t₂ => plistEq v v₂ && plistEqList t t₂
  | _, _ => false

end

/-! ## Affine transform decomposition (norad_interop.rs lines 135-221)

The decomposition and recomposition are `f64` computations through
`sqrt`, `atan2`, `sin`, `cos` and `tan`; the model works over `ℝ`, where
the claim's concrete instance is exact.  The `kurbo::Affine` operations
(`translate`, `rotate`, `scale_non_uniform`, `skew`, and `Mul`) and
`f64::to_radians` are modelled from their documented semantics: an
affine is the coefficient array `[a, b, c, d, e, f]` of the matrix with
columns `(a, b)`, `(c, d)`, `(e, f)`. -/

/-- Mirror of `norad::AffineTransform`. -/
structure AffineT where
  x_scale : ℝ
  xy_scale : ℝ
  yx_scale : ℝ
  y_scale : ℝ
  x_offset : ℝ
  y_offset : ℝ

open Classical in
/-- `f64::atan2(y, x)`: the angle of the point `(x, y)` in `(-π, π]`
(the model fixes the IEEE `atan2(0, x) = π` for `x < 0` convention the
concrete instance exercises). -/
noncomputable def atan2R (y x : ℝ) : ℝ :=
  if 0 < x then Real.arctan (y / x)
  else if x < 0 ∧ 0 ≤ y then Real.arctan (y / x) + Real.pi
  else if x < 0 ∧ y < 0 then Real.arctan (y / x) - Real.pi
  else if 0 < y then Real.pi / 2
  else if y < 0 then -(Real.pi / 2)
  else 0

open Classical in
/-- Mirror of `fn transform_struct_to_scale_and_rotation`
(norad_interop.rs lines 135-173): `(s_x, s_y, rotation in degrees)`. -/
noncomputable def transform_struct_to_scale_and_rotation (t : AffineT) :
    ℝ × ℝ × ℝ :=
  let det := t.x_scale * t.y_scale - t.xy_scale * t.yx_scale
  let sx0 := Real.sqrt (t.x_scale ^ 2 + t.xy_scale ^ 2)
  let sy0 := Real.sqrt (t.yx_scale ^ 2 + t.y_scale ^ 2)
  let sy1 := if det < 0 then -sy0 else sy0
  let r0 := atan2R (t.xy_scale * sy1) (t.x_scale * sx0) * 180 / Real.pi
  let flip := det < 0 ∧ (135 < |r0| ∨ r0 < -90)
  let sx1 := if flip then -sx0 else sx0
  let sy2 := if flip then -sy1 else sy1
  let r1 := if flip then (if r0 < 0 then r0 + 180 else r0 - 180) else r0
  let q1 : ℝ := if r1 < -90 then 180 else 0
  let r2 := if r1 < -90 then r1 + 180 else r1
  let q2 : ℝ := if 90 < r2 then -180 else q1
  let r3 := if 90 < r2 then r2 - 180 else r2
  let r4 := r3 * sx1 / sy2
  let r5 := r4 - q2
  let r6 := if r5 < -179 then r5 + 360 else r5
  (sx1, sy2, r6)

/-- Coefficient array of a `kurbo::Affine`. -/
structure Affine6 where
  a : ℝ
  b : ℝ
  c : ℝ
  d : ℝ
  e : ℝ
  f : ℝ

/-- `kurbo::Affine` multiplication (column-major 2x2 block plus
translation). -/
def affMul (p q : Affine6) : Affine6 :=
  { a := p.a * q.a + p.c * q.b
    b := p.b * q.a + p.d * q.b
    c := p.a * q.c + p.c * q.d
    d := p.b * q.c + p.d * q.d
    e := p.a * q.e + p.c * q.f + p.e
    f := p.b * q.e + p.d * q.f + p.f }

/-- `kurbo::Affine::translate`. -/
def affTranslate (x y : ℝ) : Affine6 :=
  { a := 1, b := 0, c := 0, d := 1, e := x, f := y }

open Classical in
/-- `kurbo::Affine::rotate`. -/
noncomputable def affRotate (th : ℝ) : Affine6 :=
  { a := Real.cos th, b := Real.sin th, c := -Real.sin th, d := Real.cos th,
    e := 0, f := 0 }

/-- `kurbo::Affine::scale_non_uniform`. -/
def affScale (sx sy : ℝ) : Affine6 :=
  { a := sx, b := 0, c := 0, d := sy, e := 0, f := 0 }

open Classical in
/-- `kurbo::Affine::skew`. -/
noncomputable def affSkew (kx ky : ℝ) : Affine6 :=
  { a := 1, b := Real.tan ky, c := Real.tan kx, d := 1, e := 0, f := 0 }

open Classical in
/-- `f64::round` on the real model: round half away from zero. -/
noncomputable def roundAwayReal (x : ℝ) : ℝ :=
  if 0 ≤ x then (⌊x + 1 / 2⌋ : ℤ) else -((⌊-x + 1 / 2⌋ : ℤ) : ℝ)

/-- Mirror of `fn f64_precision` with `precision = 5` (norad_interop.rs
lines 218-221). -/
noncomputable def f64Precision5 (v : ℝ) : ℝ :=
  roundAwayReal (v * 100000) / 100000

/-- Mirror of `TryFrom(&Component) for norad::Component`
(norad_interop.rs lines 175-216) for a component carrying rotation `r`,
scales `(sx, sy)`, position `(ox, oy)` and no slant: recompose
`translate * rotate * scale_non_uniform * skew` in kurbo coefficient
order and round every coefficient to 5 decimal digits. -/
noncomputable def recomposeTransform (sx sy r ox oy : ℝ) : AffineT :=
  let rad := r * (Real.pi / 180)
  let m :=
    affMul (affTranslate ox oy)
      (affMul (affRotate rad) (affMul (affScale sx sy) (affSkew 0 0)))
  { x_scale := f64Precision5 m.a
    xy_scale := f64Precision5 m.b
    yx_scale := f64Precision5 m.c
    y_scale := f64Precision5 m.d
    x_offset := f64Precision5 m.e
    y_offset := f64Precision5 m.f }

/-- The decompose-then-recompose round trip of
`From(&norad::Component) for Component` followed by
`TryFrom(&Component) for norad::Component` on a non-identity transform:
rotation/scale from the decomposition, position from the offsets, no
slant. -/
noncomputable def componentRoundTrip (t : AffineT) : AffineT :=
  let d := transform_struct_to_scale_and_rotation t
  recomposeTransform d.1 d.2.1 d.2.2 t.x_offset t.y_offset

/-- The lexing context after a serialized value: nothing that could
extend a bareword atom. -/
def headNotAlnum (rest : List Char) : Prop :=
  ∀ c, rest.head? = some c → is_alnum c = false

/-! ## Lemmas: character classes and whitespace -/

theorem is_ascii_whitespace_cases {c : Char} (h : is_ascii_whitespace c = true) :
    c = ' ' ∨ c = tabChar ∨ c = crChar ∨ c = nlChar := by
  simp only [is_ascii_whitespace, Bool.or_eq_true, decide_eq_true_eq] at h
  tauto

theorem alnum_not_ws {c : Char} (h : is_alnum c = true) :
    is_ascii_whitespace c = false := by
  cases hw : is_ascii_whitespace c with
  | false => rfl
  | true =>
    rcases is_ascii_whitespace_cases hw with rfl | rfl | rfl | rfl <;>
      simp [is_alnum, is_numeric, tabChar, crChar, nlChar, Char.isDigit,
        Char.isUpper, Char.isLower] at h

theorem alnum_ne {c d : Char} (h : is_alnum c = true)
    (hd : is_alnum d = false) : c ≠ d := by
  intro rfl0
  rw [rfl0, hd] at h
  cases h

theorem skip_ws_nil : skip_ws [] = [] := rfl

theorem skip_ws_cons_not_ws {c : Char} (h : is_ascii_whitespace c = false)
    (s : List Char) : skip_ws (c :: s) = c :: s := by
  simp [skip_ws, List.dropWhile_cons, h]

theorem skip_ws_cons_ws {c : Char} (h : is_ascii_whitespace c = true)
    (s : List Char) : skip_ws (c :: s) = skip_ws s := by
  simp [skip_ws, List.dropWhile_cons, h]

/-! ## Lemmas: the key order -/

theorem keyLt_irrefl (a : List Char) : keyLt a a = false := by
  induction a with
  | nil => rfl
  | cons c t ih => simp [keyLt, ih]

theorem keyLt_trans {a b c : List Char} (h₁ : keyLt a b = true)
    (h₂ : keyLt b c = true) : keyLt a c = true := by
  induction a generalizing b c with
  | nil =>
    cases c with
    | nil =>
      cases b with
      | nil => simp [keyLt] at h₁
      | cons d u => simp [keyLt] at h₂
    | cons e v => simp [keyLt]
  | cons x xs ih =>
    cases b with
    | nil => simp [keyLt] at h₁
    | cons y ys =>
      cases c with
      | nil => simp [keyLt] at h₂
      | cons z zs =>
        simp only [keyLt] at h₁ h₂ ⊢
        by_cases hxy : x < y
        · by_cases hyz : y < z
          · rw [if_pos (lt_trans hxy hyz)]
          · rw [if_neg hyz] at h₂
            by_cases hzy : z < y
            · rw [if_pos hzy] at h₂; cases h₂
            · have : y = z := le_antisymm (not_lt.mp hzy) (not_lt.mp hyz)
              subst this
              rw [if_pos hxy]
        · rw [if_neg hxy] at h₁
          by_cases hyx : y < x
          · rw [if_pos hyx] at h₁; cases h₁
          · have hxyeq : x = y := le_antisymm (not_lt.mp hyx) (not_lt.mp hxy)
            subst hxyeq
            rw [if_neg (lt_irrefl x)] at h₁
            by_cases hxz : x < z
            · rw [if_pos hxz]
            · rw [if_neg hxz] at h₂ ⊢
              by_cases hzx : z < x
              · rw [if_pos hzx] at h₂; cases h₂
              · rw [if_neg hzx] at h₂ ⊢
                exact ih h₁ h₂

theorem keyLt_total (a b : List Char) :
    keyLt a b = true ∨ a = b ∨ keyLt b a = true := by
  induction a generalizing b with
  | nil =>
    cases b with
    | nil => exact Or.inr (Or.inl rfl)
    | cons c t => exact Or.inl rfl
  | cons c t ih =>
    cases b with
    | nil => exact Or.inr (Or.inr rfl)
    | cons d u =>
      by_cases hcd : c < d
      · exact Or.inl (by simp [keyLt, hcd])
      · by_cases hdc : d < c
        · exact Or.inr (Or.inr (by simp [keyLt, hdc]))
        · have : c = d := le_antisymm (not_lt.mp hdc) (not_lt.mp hcd)
          subst this
          rcases ih u with h | h | h
          · exact Or.inl (by simp [keyLt, lt_irrefl, h])
          · exact Or.inr (Or.inl (by rw [h]))
          · exact Or.inr (Or.inr (by simp [keyLt, lt_irrefl, h]))

theorem keyLt_asymm {a b : List Char} (h : keyLt a b = true) :
    keyLt b a = false := by
  cases hba : keyLt b a with
  | false => rfl
  | true =>
    have h2 := keyLt_trans h hba
    rw [keyLt_irrefl] at h2
    cases h2

theorem keyLt_ne {a b : List Char} (h : keyLt a b = true) : a ≠ b := by
  intro rfl0
  rw [rfl0, keyLt_irrefl] at h
  cases h

/-! ## Lemmas: the sorted association map -/

theorem lookupKey_insertKey (m : List (List Char × Plist)) (k k₂ : List Char)
    (v : Plist) :
    lookupKey (insertKey m k v) k₂ =
      if k₂ = k then some v else lookupKey m k₂ := by
  induction m with
  | nil =>
    by_cases h : k₂ = k <;> simp [insertKey, lookupKey, h]
  | cons hd t ih =>
    obtain ⟨k₀, v₀⟩ := hd
    simp only [insertKey]
    by_cases h₁ : keyLt k k₀
    · rw [if_pos h₁]
      by_cases h : k₂ = k <;> simp [lookupKey, h]
    · rw [if_neg h₁]
      by_cases h₂ : k = k₀
      · subst h₂
        rw [if_pos rfl]
        by_cases h : k₂ = k <;> simp [lookupKey, h]
      · rw [if_neg h₂]
        by_cases h : k₂ = k₀
        · subst h
          rw [lookupKey, if_pos rfl, lookupKey, if_pos rfl,
            if_neg (fun hh => h₂ hh.symm)]
        · rw [lookupKey, if_neg h, lookupKey, if_neg h, ih]

/-- `sortedKeysB` of a tail. -/
theorem sortedKeysB_tail {hd : List Char × Plist}
    {t : List (List Char × Plist)} (h : sortedKeysB (hd :: t) = true) :
    sortedKeysB t = true := by
  cases t with
  | nil => rfl
  | cons hd₂ t₂ =>
    obtain ⟨k₁, v₁⟩ := hd
    obtain ⟨k₂, v₂⟩ := hd₂
    simp only [sortedKeysB, Bool.and_eq_true] at h
    exact h.2

/-- The head key of a sorted map bounds every key in it. -/
theorem sortedKeysB_head_lt {k₁ : List Char} {v₁ : Plist}
    {t : List (List Char × Plist)} (h : sortedKeysB ((k₁, v₁) :: t) = true)
    {k : List Char} {v : Plist} (hm : (k, v) ∈ t) : keyLt k₁ k = true := by
  induction t generalizing k₁ v₁ with
  | nil => cases hm
  | cons hd₂ t₂ ih =>
    obtain ⟨k₂, v₂⟩ := hd₂
    simp only [sortedKeysB, Bool.and_eq_true] at h
    rcases List.mem_cons.mp hm with heq | hm₂
    · cases heq
      exact h.1
    · exact keyLt_trans h.1 (ih h.2 hm₂)

/-- Inserting a key greater than every key of a sorted map appends. -/
theorem insertKey_append_of_gt (m : List (List Char × Plist))
    (k : List Char) (v : Plist)
    (h : ∀ k₀ v₀, (k₀, v₀) ∈ m → keyLt k₀ k = true) :
    insertKey m k v = m ++ [(k, v)] := by
  induction m with
  | nil => rfl
  | cons hd t ih =>
    obtain ⟨k₀, v₀⟩ := hd
    have hlt : keyLt k₀ k = true := h k₀ v₀ (List.mem_cons_self _ _)
    simp only [insertKey]
    rw [if_neg (by rw [keyLt_asymm hlt]; exact fun hh => Bool.noConfusion hh),
      if_neg (fun hh => keyLt_ne hlt hh.symm)]
    rw [ih (fun k₁ v₁ hm => h k₁ v₁ (List.mem_cons_of_mem _ hm))]
    rfl

/-- On a canonically sorted map, re-inserting every pair left to right is
the identity: the sorted association list and the `HashMap` it models
have the same contents. -/
theorem buildMap_eq_self (m : List (List Char × Plist))
    (h : sortedKeysB m = true) : buildMap m = m := by
  have general :
      ∀ (t acc : List (List Char × Plist)),
        sortedKeysB (acc ++ t) = true →
        t.foldl (fun m₂ kv => insertKey m₂ kv.1 kv.2) acc = acc ++ t := by
    intro t
    induction t with
    | nil => intro acc _; simp
    | cons hd tl ih =>
      intro acc hs
      obtain ⟨k, v⟩ := hd
      have hins : insertKey acc k v = acc ++ [(k, v)] := by
        apply insertKey_append_of_gt
        intro k₀ v₀ hm
        -- `k₀` precedes `k` in the sorted list `acc ++ (k, v) :: tl`
        have : ∀ (acc₂ : List (List Char × Plist)),
            sortedKeysB (acc₂ ++ (k, v) :: tl) = true →
            ∀ k₁ v₁, (k₁, v₁) ∈ acc₂ → keyLt k₁ k = true := by
          intro acc₂
          induction acc₂ with
          | nil => intro _ k₁ v₁ hm₁; cases hm₁
          | cons hd₂ t₂ ih₂ =>
            intro hs₂ k₁ v₁ hm₁
            obtain ⟨k₂, v₂⟩ := hd₂
            simp only [List.cons_append] at hs₂
            rcases List.mem_cons.mp hm₁ with heq | hm₂
            · cases heq
              exact sortedKeysB_head_lt hs₂
                (List.mem_append_right t₂ (List.mem_cons_self _ _))
            · exact ih₂ (sortedKeysB_tail hs₂) k₁ v₁ hm₂
        exact this acc hs k₀ v₀ hm
      simp only [List.foldl_cons]
      rw [hins, ih (acc ++ [(k, v)]) (by simpa using hs)]
      simp
  simpa using general m [] (by simpa using h)

/-- `sortedKeysB` only looks at the keys, not the values. -/
theorem sortedKeysB_cons_congr (k : List Char) (v v₂ : Plist)
    (t : List (List Char × Plist)) :
    sortedKeysB ((k, v) :: t) = sortedKeysB ((k, v₂) :: t) := by
  cases t with
  | nil => rfl
  | cons hd₂ t₂ =>
    obtain ⟨k₂, u₂⟩ := hd₂
    simp [sortedKeysB]

/-- `insertKey` keeps the map canonically sorted. -/
theorem insertKey_sorted (m : List (List Char × Plist)) (k : List Char)
    (v : Plist) (h : sortedKeysB m = true) :
    sortedKeysB (insertKey m k v) = true := by
  induction m with
  | nil => rfl
  | cons hd t ih =>
    obtain ⟨k₀, v₀⟩ := hd
    simp only [insertKey]
    by_cases h₁ : keyLt k k₀
    · rw [if_pos h₁]
      cases t with
      | nil => simp [sortedKeysB, h₁]
      | cons hd₂ t₂ =>
        obtain ⟨k₂, u₂⟩ := hd₂
        simp only [sortedKeysB, Bool.and_eq_true] at h ⊢
        exact ⟨h₁, h⟩
    · rw [if_neg h₁]
      by_cases h₂ : k = k₀
      · rw [if_pos h₂]
        subst h₂
        rw [sortedKeysB_cons_congr k v v₀ t]
        exact h
      · rw [if_neg h₂]
        have hk₀k : keyLt k₀ k = true := by
          rcases keyLt_total k k₀ with hh | hh | hh
          · exact absurd hh h₁
          · exact absurd hh h₂
          · exact hh
        have ht : sortedKeysB t = true := sortedKeysB_tail h
        cases t with
        | nil => simp [insertKey, sortedKeysB, hk₀k]
        | cons hd₂ t₂ =>
          obtain ⟨k₁, v₁⟩ := hd₂
          have hrec := ih ht
          simp only [sortedKeysB, Bool.and_eq_true] at h
          simp only [insertKey] at hrec ⊢
          by_cases g₁ : keyLt k k₁
          · rw [if_pos g₁] at hrec ⊢
            simp only [sortedKeysB, Bool.and_eq_true] at hrec ⊢
            exact ⟨hk₀k, hrec⟩
          · rw [if_neg g₁] at hrec ⊢
            by_cases g₂ : k = k₁
            · rw [if_pos g₂] at hrec ⊢
              subst g₂
              simp only [sortedKeysB, Bool.and_eq_true] at hrec ⊢
              exact ⟨hk₀k, hrec⟩
            · rw [if_neg g₂] at hrec ⊢
              simp only [sortedKeysB, Bool.and_eq_true] at hrec ⊢
              exact ⟨h.1, hrec⟩

/-- Keys never removed: `removeKey` leaves other bindings alone. -/
theorem lookupKey_removeKey_ne (m : List (List Char × Plist))
    (k k₂ : List Char) (h : k₂ ≠ k) :
    lookupKey (removeKey m k).2 k₂ = lookupKey m k₂ := by
  induction m with
  | nil => rfl
  | cons hd t ih =>
    obtain ⟨k₀, v₀⟩ := hd
    simp only [removeKey]
    by_cases h₁ : k = k₀
    · rw [if_pos h₁]
      subst h₁
      simp only [lookupKey, if_neg h]
    · rw [if_neg h₁]
      simp only [lookupKey]
      by_cases h₂ : k₂ = k₀
      · rw [if_pos h₂, if_pos h₂]
      · rw [if_neg h₂, if_neg h₂, ih]

/-- A removed key is gone (on the sorted canonical form it can occur at
most once). -/
theorem lookupKey_removeFields_not_mem (declared : List (List Char))
    (m : List (List Char × Plist)) (k : List Char) (h : k ∉ declared) :
    lookupKey (removeFields declared m) k = lookupKey m k := by
  induction declared generalizing m with
  | nil => rfl
  | cons d t ih =>
    simp only [removeFields, List.foldl_cons]
    have hne : k ≠ d := fun hh => h (hh ▸ List.mem_cons_self d t)
    have := ih ((removeKey m d).2) (fun hh => h (List.mem_cons_of_mem d hh))
    simpa only [removeFields] using this.trans (lookupKey_removeKey_ne m d k hne)

/-- A key no emitted field writes is whatever the rest bucket holds. -/
theorem lookupKey_serMerge_not_mem (fields : List (List Char × Option Plist))
    (rest : List (List Char × Plist)) (k : List Char)
    (h : ∀ p ∈ fields, k ≠ p.1) :
    lookupKey (serMerge rest fields) k = lookupKey rest k := by
  induction fields generalizing rest with
  | nil => rfl
  | cons f t ih =>
    obtain ⟨name, pv⟩ := f
    simp only [serMerge, List.foldl_cons]
    have hne : k ≠ name := h (name, pv) (List.mem_cons_self _ _)
    have hrec := fun r => ih r (fun p hp => h p (List.mem_cons_of_mem _ hp))
    cases pv with
    | none => exact hrec rest
    | some p =>
      have := hrec (insertKey rest name p)
      simp only [serMerge] at this ⊢
      rw [this, lookupKey_insertKey, if_neg hne]

/-! ## Lemmas: decimal digit strings -/

theorem natToChars_ne_nil (n : Nat) : natToChars n ≠ [] := by
  rw [natToChars]
  split <;> simp

theorem natToChars_all_digits (n : Nat) :
    ∀ c ∈ natToChars n, c.isDigit = true := by
  induction n using Nat.strong_induction_on with
  | _ n ih =>
    rw [natToChars]
    split
    · next h =>
      intro c hc
      simp only [List.mem_singleton] at hc
      subst hc
      interval_cases n <;> decide
    · next h =>
      intro c hc
      rcases List.mem_append.mp hc with hc₁ | hc₂
      · exact ih (n / 10) (Nat.div_lt_self (by omega) (by omega)) c hc₁
      · simp only [List.mem_singleton] at hc₂
        subst hc₂
        have hm : n % 10 < 10 := Nat.mod_lt n (by omega)
        set m := n % 10 with hmdef
        clear_value m
        interval_cases m <;> decide

theorem natVal_append_digit (a : List Char) (c : Char) :
    natVal (a ++ [c]) = 10 * natVal a + digitVal c := by
  simp [natVal, List.foldl_append]
  ring

theorem natVal_natToChars (n : Nat) : natVal (natToChars n) = n := by
  induction n using Nat.strong_induction_on with
  | _ n ih =>
    rw [natToChars]
    split
    · next h =>
      simp only [natVal, List.foldl_cons, List.foldl_nil]
      have : digitVal (Char.ofNat (48 + n)) = n := by
        interval_cases n <;> decide
      simpa using this
    · next h =>
      rw [natVal_append_digit, ih (n / 10) (Nat.div_lt_self (by omega) (by omega))]
      have hm : n % 10 < 10 := Nat.mod_lt n (by omega)
      have : digitVal (Char.ofNat (48 + n % 10)) = n % 10 := by
        set m := n % 10 with hmdef
        clear_value m
        interval_cases m <;> decide
      rw [this]
      omega

theorem natToChars_length_le (n k : Nat) (hn : n < 10 ^ k) (hk : 1 ≤ k) :
    (natToChars n).length ≤ k := by
  induction n using Nat.strong_induction_on generalizing k with
  | _ n ih =>
    rw [natToChars]
    split
    · next h => simpa using hk
    · next h =>
      have h10 : 10 ≤ n := by omega
      have hk2 : 2 ≤ k := by
        by_contra hcon
        have : k = 1 := by omega
        subst this
        simp at hn
        omega
      have hdiv : n / 10 < 10 ^ (k - 1) := by
        have : n < 10 * 10 ^ (k - 1) := by
          have : 10 * 10 ^ (k - 1) = 10 ^ k := by
            have : k - 1 + 1 = k := by omega
            calc 10 * 10 ^ (k - 1) = 10 ^ (k - 1 + 1) := by ring
              _ = 10 ^ k := by rw [this]
          omega
        omega
      have := ih (n / 10) (Nat.div_lt_self (by omega) (by omega)) (k - 1)
        hdiv (by omega)
      simp only [List.length_append, List.length_singleton]
      omega

theorem natToChars_head_ne_zero (n : Nat) (hn : 1 ≤ n) (c : Char)
    (t : List Char) (h : natToChars n = c :: t) : c ≠ '0' := by
  induction n using Nat.strong_induction_on generalizing c t with
  | _ n ih =>
    rw [natToChars] at h
    split at h
    · next hlt =>
      simp only [List.cons.injEq] at h
      obtain ⟨rfl, -⟩ := h
      interval_cases n <;> simp_all
    · next hlt =>
      obtain ⟨c₂, t₂, hne⟩ := List.exists_cons_of_ne_nil (natToChars_ne_nil (n / 10))
      rw [hne] at h
      simp only [List.cons_append, List.cons.injEq] at h
      obtain ⟨rfl, -⟩ := h
      exact ih (n / 10) (Nat.div_lt_self (by omega) (by omega))
        (Nat.one_le_div_iff (by omega) |>.mpr (by omega)) c₂ t₂ hne

theorem parseNatDigits_natToChars (n : Nat) :
    parseNatDigits (natToChars n) = some n := by
  have hne := natToChars_ne_nil n
  have hdig := natToChars_all_digits n
  simp only [parseNatDigits]
  rw [if_neg (by simpa using hne), if_pos (by simpa [List.all_eq_true] using hdig)]
  rw [natVal_natToChars]

theorem digit_ne_minus {c : Char} (h : c.isDigit = true) : c ≠ '-' := by
  intro rfl0
  rw [rfl0] at h
  cases h

theorem digit_ne_plus {c : Char} (h : c.isDigit = true) : c ≠ '+' := by
  intro rfl0
  rw [rfl0] at h
  cases h

theorem digit_is_alnum {c : Char} (h : c.isDigit = true) :
    is_alnum c = true := by
  simp [is_alnum, is_numeric, h]

theorem parseI64core_digits (n : Nat) (hmax : (n : Int) ≤ i64Max) :
    parseI64core false (natToChars n) = some (n : Int) := by
  simp only [parseI64core, parseNatDigits_natToChars, Option.some_bind, cond_false]
  rw [if_pos ⟨by simp only [i64Min]; omega, hmax⟩]

theorem parseI64_intToChars (n : Int) (h₁ : i64Min ≤ n) (h₂ : n ≤ i64Max) :
    parseI64 (intToChars n) = some n := by
  by_cases hneg : n < 0
  · have hred : parseI64 (intToChars n) = parseI64core true (natToChars n.natAbs) := by
      rw [intToChars, if_pos hneg]
      rfl
    rw [hred]
    simp only [parseI64core, parseNatDigits_natToChars, Option.some_bind, cond_true]
    have habs : -((n.natAbs : Nat) : Int) = n := by omega
    rw [habs, if_pos ⟨h₁, h₂⟩]
  · have hn0 : 0 ≤ n := by omega
    simp only [intToChars, if_neg hneg]
    obtain ⟨c, t, hct⟩ := List.exists_cons_of_ne_nil (natToChars_ne_nil n.natAbs)
    have hcdig : c.isDigit = true :=
      natToChars_all_digits n.natAbs c (hct ▸ List.mem_cons_self c t)
    rw [hct, parseI64, if_neg (digit_ne_minus hcdig), if_neg (digit_ne_plus hcdig),
      ← hct]
    have habs : ((n.natAbs : Nat) : Int) = n := by omega
    rw [parseI64core_digits n.natAbs (by rw [habs]; exact h₂), habs]

/-! ## Lemmas: `numeric_ok` and `parse_atom` on serialized numbers -/

theorem numeric_ok_digits (c : Char) (cs : List Char)
    (hdig : ∀ x ∈ c :: cs, x.isDigit = true)
    (hhead : cs = [] ∨ c ≠ '0') : numeric_ok (c :: cs) = true := by
  have hall : (c :: cs).all Char.isDigit = true := by
    simp only [List.all_eq_true]
    exact hdig
  simp only [numeric_ok, hall, Bool.not_true, Bool.and_false, if_false]
  rcases hhead with rfl | hne
  · simp
  · simp [hne]

theorem numeric_ok_minus (cs : List Char) : numeric_ok ('-' :: cs) = true := by
  have hhex : ('-' :: cs).all is_hex_upper = false := by
    simp only [List.all_cons, Bool.and_eq_false_iff]
    left
    decide
  simp [numeric_ok, hhex]

theorem numeric_ok_intToChars (n : Int) :
    numeric_ok (intToChars n) = true := by
  by_cases hneg : n < 0
  · rw [intToChars, if_pos hneg]
    exact numeric_ok_minus _
  · rw [intToChars, if_neg hneg]
    obtain ⟨c, t, hct⟩ := List.exists_cons_of_ne_nil (natToChars_ne_nil n.natAbs)
    rw [hct]
    apply numeric_ok_digits
    · intro x hx
      exact natToChars_all_digits n.natAbs x (hct ▸ hx)
    · by_cases hsmall : n.natAbs < 10
      · left
        rw [natToChars, dif_pos hsmall] at hct
        simp only [List.cons.injEq] at hct
        exact hct.2.symm
      · right
        by_cases hzero : n.natAbs = 0
        · omega
        · exact natToChars_head_ne_zero n.natAbs (by omega) c t hct

theorem parse_atom_intToChars (n : Int) (h₁ : i64Min ≤ n) (h₂ : n ≤ i64Max) :
    parse_atom (intToChars n) = .int n := by
  rw [parse_atom, if_pos (numeric_ok_intToChars n), parseI64_intToChars n h₁ h₂]

/-! ## Lemmas: float display round trip -/

theorem natVal_append (b a : List Char) :
    natVal (a ++ b) = natVal a * 10 ^ b.length + natVal b := by
  induction b using List.reverseRecOn with
  | nil => simp [natVal]
  | append_singleton bs c ih =>
    rw [← List.append_assoc, natVal_append_digit, ih, natVal_append_digit]
    simp only [List.length_append, List.length_singleton]
    ring

theorem natVal_replicate_zero (m : Nat) :
    natVal (List.replicate m '0') = 0 := by
  induction m with
  | zero => rfl
  | succ k ih =>
    have : List.replicate (k + 1) '0' = List.replicate k '0' ++ ['0'] := by
      rw [List.replicate_succ']
    rw [this, natVal_append_digit, ih]
    decide

theorem padZeros_length (ds : List Char) (k : Nat) (h : ds.length ≤ k) :
    (padZeros ds k).length = k := by
  simp [padZeros]
  omega

theorem padZeros_all_digits (ds : List Char) (k : Nat)
    (h : ∀ c ∈ ds, c.isDigit = true) :
    ∀ c ∈ padZeros ds k, c.isDigit = true := by
  intro c hc
  rcases List.mem_append.mp hc with hr | hd
  · rw [List.eq_of_mem_replicate hr]
    decide
  · exact h c hd

theorem natVal_padZeros (ds : List Char) (k : Nat) :
    natVal (padZeros ds k) = natVal ds := by
  simp only [padZeros, natVal_append, natVal_replicate_zero, zero_mul, zero_add]

theorem tenPowIndex_dvd (d : Nat) (h : d ∣ 10 ^ d) :
    d ∣ 10 ^ tenPowIndex d := by
  unfold tenPowIndex
  cases hf : (List.range (d + 1)).find? (fun k => decide (d ∣ 10 ^ k)) with
  | none =>
    exfalso
    have := List.find?_eq_none.mp hf d (List.mem_range.mpr (by omega))
    simp only [decide_eq_true_eq] at this
    exact this h
  | some k =>
    have := List.find?_some hf
    simpa using this

theorem tenPowIndex_pos (d : Nat) (hd : d ≠ 1) (h : d ∣ 10 ^ d) :
    1 ≤ tenPowIndex d := by
  by_contra hcon
  have hk : tenPowIndex d = 0 := by omega
  have := tenPowIndex_dvd d h
  rw [hk, pow_zero] at this
  exact hd (Nat.eq_one_of_dvd_one this)

theorem splitMantExp_no_e (s : List Char)
    (h : ∀ c ∈ s, c ≠ 'e' ∧ c ≠ 'E') : splitMantExp s = (s, none) := by
  induction s with
  | nil => rfl
  | cons c t ih =>
    have hc := h c (List.mem_cons_self c t)
    rw [splitMantExp, if_neg (by tauto)]
    rw [ih (fun x hx => h x (List.mem_cons_of_mem c hx))]

theorem parseNatDigits_of_dot (s : List Char) (h : '.' ∈ s) :
    parseNatDigits s = none := by
  have : s.all Char.isDigit = false := by
    rw [List.all_eq_false]
    exact ⟨'.', h, by decide⟩
  simp only [parseNatDigits, this]
  rw [if_neg (by simp; exact List.ne_nil_of_mem h)]
  simp

theorem takeWhile_append_all {p : Char → Bool} (l r : List Char)
    (h : ∀ c ∈ l, p c = true) :
    (l ++ r).takeWhile p = l ++ r.takeWhile p := by
  induction l with
  | nil => rfl
  | cons c t ih =>
    rw [List.cons_append, List.takeWhile_cons,
      if_pos (h c (List.mem_cons_self c t)), ih (fun x hx => h x (List.mem_cons_of_mem c hx))]
    rfl

theorem dropWhile_append_all {p : Char → Bool} (l r : List Char)
    (h : ∀ c ∈ l, p c = true) :
    (l ++ r).dropWhile p = r.dropWhile p := by
  induction l with
  | nil => rfl
  | cons c t ih =>
    rw [List.cons_append, List.dropWhile_cons,
      if_pos (h c (List.mem_cons_self c t)), ih (fun x hx => h x (List.mem_cons_of_mem c hx))]

theorem takeWhile_cons_neg {p : Char → Bool} (c : Char) (t : List Char)
    (h : p c = false) : (c :: t).takeWhile p = [] := by
  simp [List.takeWhile_cons, h]

theorem dropWhile_cons_neg {p : Char → Bool} (c : Char) (t : List Char)
    (h : p c = false) : (c :: t).dropWhile p = c :: t := by
  simp [List.dropWhile_cons, h]

theorem digit_ne_e {c : Char} (h : c.isDigit = true) : c ≠ 'e' ∧ c ≠ 'E' := by
  constructor <;> intro rfl0 <;> rw [rfl0] at h <;> cases h

theorem parseMantissa_digits_dot (a b : List Char)
    (ha : ∀ c ∈ a, c.isDigit = true) (hb : ∀ c ∈ b, c.isDigit = true)
    (hane : a ≠ []) :
    parseMantissa (a ++ '.' :: b) = some (natVal (a ++ b), b.length) := by
  have htake : (a ++ '.' :: b).takeWhile Char.isDigit = a := by
    rw [takeWhile_append_all a _ ha, takeWhile_cons_neg '.' b (by decide)]
    simp
  have hdrop : (a ++ '.' :: b).dropWhile Char.isDigit = '.' :: b := by
    rw [dropWhile_append_all a _ ha, dropWhile_cons_neg '.' b (by decide)]
  simp only [parseMantissa, htake, hdrop]
  rw [if_pos]
  simp only [Bool.and_eq_true, List.all_eq_true, Bool.not_eq_true]
  constructor
  · exact hb
  · simp [List.isEmpty_iff, hane]

theorem parseF64core_digits_dot (a b : List Char)
    (ha : ∀ c ∈ a, c.isDigit = true) (hb : ∀ c ∈ b, c.isDigit = true)
    (hane : a ≠ []) :
    parseF64core (a ++ '.' :: b) =
      some ((natVal (a ++ b) : ℚ) * (10 : ℚ) ^ ((0 : Int) - (b.length : Int))) := by
  have hsplit : splitMantExp (a ++ '.' :: b) = (a ++ '.' :: b, none) := by
    apply splitMantExp_no_e
    intro c hc
    rcases List.mem_append.mp hc with hca | hcb
    · exact digit_ne_e (ha c hca)
    · rcases List.mem_cons.mp hcb with rfl | hcb₂
      · exact ⟨by decide, by decide⟩
      · exact digit_ne_e (hb c hcb₂)
  simp only [parseF64core, hsplit, parseMantissa_digits_dot a b ha hb hane]

theorem parseF64core_value (a b : List Char) (q : ℚ)
    (ha : ∀ c ∈ a, c.isDigit = true) (hb : ∀ c ∈ b, c.isDigit = true)
    (hane : a ≠ [])
    (hval : (natVal (a ++ b) : ℚ) * (10 : ℚ) ^ ((0 : Int) - (b.length : Int)) = q) :
    parseF64core (a ++ '.' :: b) = some q := by
  rw [parseF64core_digits_dot a b ha hb hane, hval]

theorem displayFloat_shape (q : ℚ) (hden : q.den ≠ 1) :
    displayFloat q =
      (if q.num < 0 then ['-'] else []) ++
        (natToChars
            (q.num.natAbs * (10 ^ tenPowIndex q.den / q.den) /
              10 ^ tenPowIndex q.den) ++
          '.' ::
            padZeros
              (natToChars
                (q.num.natAbs * (10 ^ tenPowIndex q.den / q.den) %
                  10 ^ tenPowIndex q.den))
              (tenPowIndex q.den)) := by
  unfold displayFloat
  rw [if_neg hden]
  simp [List.append_assoc]

theorem abs_eq_natAbs_div_den (q : ℚ) :
    (q.num.natAbs : ℚ) / (q.den : ℚ) = |q| := by
  have h1 : |q| = |(q.num : ℚ) / (q.den : ℚ)| := by
    rw [Rat.num_div_den q]
  rw [h1, abs_div, Int.cast_natAbs, abs_of_pos
    (show (0 : ℚ) < (q.den : ℚ) by exact_mod_cast q.pos), Int.cast_abs]

theorem scaled_value (q : ℚ) (k : Nat) (hkdvd : q.den ∣ 10 ^ k) :
    ((q.num.natAbs * (10 ^ k / q.den) : Nat) : ℚ) *
      (10 : ℚ) ^ ((0 : Int) - (k : Int)) = |q| := by
  have hden0 : ((q.den : ℚ)) ≠ 0 := by
    exact_mod_cast q.den_nz
  have hpow0 : ((10 : ℚ) ^ k) ≠ 0 := by positivity
  have hX : ((10 ^ k / q.den : Nat) : ℚ) * (q.den : ℚ) = (10 : ℚ) ^ k := by
    rw [← Nat.cast_mul, Nat.div_mul_cancel hkdvd]
    push_cast
    ring
  have hzpow : (10 : ℚ) ^ ((0 : Int) - (k : Int)) = ((10 : ℚ) ^ k)⁻¹ := by
    rw [zero_sub, zpow_neg, zpow_natCast]
  have hX2 : ((10 ^ k / q.den : Nat) : ℚ) = (10 : ℚ) ^ k / (q.den : ℚ) :=
    (eq_div_iff hden0).mpr hX
  rw [hzpow, ← abs_eq_natAbs_div_den q]
  push_cast
  rw [hX2]
  field_simp
  ring

theorem q_neg_of_num_neg (q : ℚ) (h : q.num < 0) : q < 0 := by
  rw [← Rat.num_div_den q]
  apply div_neg_of_neg_of_pos
  · exact_mod_cast h
  · exact_mod_cast q.pos

theorem q_nonneg_of_num_nonneg (q : ℚ) (h : 0 ≤ q.num) : 0 ≤ q := by
  rw [← Rat.num_div_den q]
  apply div_nonneg
  · exact_mod_cast h
  · positivity

theorem splitSign_head_digit {c : Char} (h : c.isDigit = true)
    (r : List Char) : splitSign (c :: r) = (false, c :: r) := by
  rw [splitSign, if_neg (digit_ne_minus h), if_neg (digit_ne_plus h)]

theorem parseF64val_displayFloat (q : ℚ) (hden : q.den ≠ 1)
    (hdvd : q.den ∣ 10 ^ q.den) :
    parseF64val (displayFloat q) = some q := by
  have hk1 : 1 ≤ tenPowIndex q.den := tenPowIndex_pos _ hden hdvd
  have hkdvd : q.den ∣ 10 ^ tenPowIndex q.den := tenPowIndex_dvd _ hdvd
  rw [displayFloat_shape q hden]
  set k := tenPowIndex q.den with hkdef
  set scaled := q.num.natAbs * (10 ^ k / q.den) with hsdef
  have hfp : scaled % 10 ^ k < 10 ^ k := Nat.mod_lt _ (by positivity)
  have hflen : (natToChars (scaled % 10 ^ k)).length ≤ k :=
    natToChars_length_le _ k hfp hk1
  have hb : ∀ c ∈ padZeros (natToChars (scaled % 10 ^ k)) k, c.isDigit = true :=
    padZeros_all_digits _ _ (natToChars_all_digits _)
  have ha : ∀ c ∈ natToChars (scaled / 10 ^ k), c.isDigit = true :=
    natToChars_all_digits _
  have hane : natToChars (scaled / 10 ^ k) ≠ [] := natToChars_ne_nil _
  have hblen : (padZeros (natToChars (scaled % 10 ^ k)) k).length = k :=
    padZeros_length _ _ hflen
  have hnat : natVal (natToChars (scaled / 10 ^ k) ++
      padZeros (natToChars (scaled % 10 ^ k)) k) = scaled := by
    rw [natVal_append, natVal_padZeros, natVal_natToChars, natVal_natToChars,
      hblen]
    rw [Nat.mul_comm (scaled / 10 ^ k) (10 ^ k)]
    exact Nat.div_add_mod scaled (10 ^ k)
  have hcore : parseF64core (natToChars (scaled / 10 ^ k) ++
      '.' :: padZeros (natToChars (scaled % 10 ^ k)) k) = some |q| := by
    apply parseF64core_value _ _ _ ha hb hane
    rw [hnat, hblen]
    exact scaled_value q k hkdvd
  by_cases hneg : q.num < 0
  · rw [if_pos hneg]
    have habs : -|q| = q := by
      rw [abs_of_neg (q_neg_of_num_neg q hneg), neg_neg]
    simp only [List.singleton_append, parseF64val, splitSign, if_pos rfl]
    simp only [Option.map_eq_some']
    exact ⟨|q|, hcore, habs⟩
  · rw [if_neg hneg]
    simp only [List.nil_append]
    obtain ⟨c, t, hct⟩ := List.exists_cons_of_ne_nil hane
    have hcdig : c.isDigit = true := ha c (hct ▸ List.mem_cons_self c t)
    have habs : |q| = q := abs_of_nonneg (q_nonneg_of_num_nonneg q (by omega))
    have hshape : splitSign (natToChars (scaled / 10 ^ k) ++
        '.' :: padZeros (natToChars (scaled % 10 ^ k)) k) =
        (false, natToChars (scaled / 10 ^ k) ++
          '.' :: padZeros (natToChars (scaled % 10 ^ k)) k) := by
      rw [hct]
      simp only [List.cons_append]
      exact splitSign_head_digit hcdig _
    simp only [parseF64val, hshape]
    simp only [Option.map_eq_some']
    exact ⟨|q|, hcore, habs⟩

theorem numeric_ok_of_dot (c : Char) (cs : List Char)
    (hdot : '.' ∈ c :: cs) : numeric_ok (c :: cs) = true := by
  have hhex : (c :: cs).all is_hex_upper = false := by
    rw [List.all_eq_false]
    exact ⟨'.', hdot, by decide⟩
  have hdig : (c :: cs).all Char.isDigit = false := by
    rw [List.all_eq_false]
    exact ⟨'.', hdot, by decide⟩
  simp [numeric_ok, hhex, hdig]

theorem parseNatDigits_of_mem_not_digit (s : List Char) (c : Char)
    (hmem : c ∈ s) (hnd : c.isDigit = false) : parseNatDigits s = none := by
  have : s.all Char.isDigit = false := by
    rw [List.all_eq_false]
    exact ⟨c, hmem, by simp [hnd]⟩
  simp only [parseNatDigits, this]
  rw [if_neg (by simp [List.isEmpty_iff]; exact List.ne_nil_of_mem hmem)]
  simp

theorem parse_atom_displayFloat (q : ℚ) (hden : q.den ≠ 1)
    (hdvd : q.den ∣ 10 ^ q.den) :
    parse_atom (displayFloat q) = .float q := by
  have hshape := displayFloat_shape q hden
  have hdotmem : ('.' : Char) ∈ displayFloat q := by
    rw [hshape]
    refine List.mem_append_right _ (List.mem_append_right _ ?_)
    exact List.mem_cons_self _ _
  obtain ⟨c₀, rest, hcr⟩ : ∃ c₀ rest, displayFloat q = c₀ :: rest := by
    rcases hd : displayFloat q with _ | ⟨c₀, rest⟩
    · rw [hd] at hdotmem; cases hdotmem
    · exact ⟨c₀, rest, rfl⟩
  have hnum : numeric_ok (displayFloat q) = true := by
    rw [hcr]
    exact numeric_ok_of_dot c₀ rest (hcr ▸ hdotmem)
  have hi64 : parseI64 (displayFloat q) = none := by
    by_cases hneg : q.num < 0
    · rw [hshape, if_pos hneg, List.singleton_append, parseI64, if_pos rfl]
      have hdotr : ('.' : Char) ∈ (natToChars
          (q.num.natAbs * (10 ^ tenPowIndex q.den / q.den) /
            10 ^ tenPowIndex q.den) ++
          '.' :: padZeros (natToChars
            (q.num.natAbs * (10 ^ tenPowIndex q.den / q.den) %
              10 ^ tenPowIndex q.den)) (tenPowIndex q.den)) :=
        List.mem_append_right _ (List.mem_cons_self _ _)
      simp only [parseI64core,
        parseNatDigits_of_mem_not_digit _ '.' hdotr (by decide), Option.none_bind]
    · rw [hshape, if_neg hneg, List.nil_append] at hcr ⊢
      have hc₀dig : c₀.isDigit = true := by
        obtain ⟨a, t, hat⟩ := List.exists_cons_of_ne_nil
          (natToChars_ne_nil (q.num.natAbs *
            (10 ^ tenPowIndex q.den / q.den) / 10 ^ tenPowIndex q.den))
        have hcr₂ := hcr
        rw [hat, List.cons_append, List.cons.injEq] at hcr₂
        rw [← hcr₂.1]
        exact natToChars_all_digits _ a (hat ▸ List.mem_cons_self _ _)
      rw [hcr, parseI64, if_neg (digit_ne_minus hc₀dig),
        if_neg (digit_ne_plus hc₀dig), ← hcr]
      have hdotr : ('.' : Char) ∈ (natToChars
          (q.num.natAbs * (10 ^ tenPowIndex q.den / q.den) /
            10 ^ tenPowIndex q.den) ++
          '.' :: padZeros (natToChars
            (q.num.natAbs * (10 ^ tenPowIndex q.den / q.den) %
              10 ^ tenPowIndex q.den)) (tenPowIndex q.den)) :=
        List.mem_append_right _ (List.mem_cons_self _ _)
      simp only [parseI64core,
        parseNatDigits_of_mem_not_digit _ '.' hdotr (by decide), Option.none_bind]
  rw [parse_atom, if_pos hnum, hi64, parseF64val_displayFloat q hden hdvd]

theorem displayFloat_alnum (q : ℚ) (hden : q.den ≠ 1) :
    ∀ c ∈ displayFloat q, is_alnum c = true := by
  rw [displayFloat_shape q hden]
  intro c hc
  rcases List.mem_append.mp hc with hsgn | hbody
  · have : c = '-' := by
      by_cases hneg : q.num < 0
      · rw [if_pos hneg] at hsgn
        simpa using hsgn
      · rw [if_neg hneg] at hsgn
        cases hsgn
    subst this
    decide
  · rcases List.mem_append.mp hbody with hip | hfr
    · exact digit_is_alnum (natToChars_all_digits _ c hip)
    · rcases List.mem_cons.mp hfr with rfl | hpad
      · decide
      · exact digit_is_alnum
          (padZeros_all_digits _ _ (natToChars_all_digits _) c hpad)

theorem displayFloat_ne_nil (q : ℚ) (hden : q.den ≠ 1) :
    displayFloat q ≠ [] := by
  rw [displayFloat_shape q hden]
  intro h
  rcases List.append_eq_nil.mp h with ⟨-, h₂⟩
  rcases List.append_eq_nil.mp h₂ with ⟨-, h₃⟩
  cases h₃

/-! ## Lemmas: the lexer on serialized strings and atoms -/

theorem headNotAlnum_nil : headNotAlnum [] := by
  intro c h
  cases h

theorem headNotAlnum_cons {c : Char} (h : is_alnum c = false)
    (t : List Char) : headNotAlnum (c :: t) := by
  intro d hd
  simp only [List.head?] at hd
  cases hd
  exact h

theorem takeWhile_headNotAlnum (rest : List Char) (h : headNotAlnum rest) :
    rest.takeWhile is_alnum = [] := by
  cases rest with
  | nil => rfl
  | cons c t => exact takeWhile_cons_neg c t (h c rfl)

theorem dropWhile_headNotAlnum (rest : List Char) (h : headNotAlnum rest) :
    rest.dropWhile is_alnum = rest := by
  cases rest with
  | nil => rfl
  | cons c t => exact dropWhile_cons_neg c t (h c rfl)

theorem lex_atom (a rest : List Char) (hne : a ≠ [])
    (hall : ∀ c ∈ a, is_alnum c = true) (hrest : headNotAlnum rest) :
    lex (a ++ rest) = .ok (.atom a, rest) := by
  obtain ⟨c, t, rfl⟩ := List.exists_cons_of_ne_nil hne
  have hc : is_alnum c = true := hall c (List.mem_cons_self c t)
  have ht : ∀ x ∈ t, is_alnum x = true :=
    fun x hx => hall x (List.mem_cons_of_mem c hx)
  rw [List.cons_append, lex, skip_ws_cons_not_ws (alnum_not_ws hc), lexCore]
  rw [if_neg (alnum_ne hc (by decide)), if_neg (alnum_ne hc (by decide)),
    if_neg (alnum_ne hc (by decide)), if_pos hc]
  rw [takeWhile_append_all t rest ht, takeWhile_headNotAlnum rest hrest,
    dropWhile_append_all t rest ht, dropWhile_headNotAlnum rest hrest]
  simp

theorem lexQuotedBody_cons (c : Char) (r buf : List Char) :
    lexQuotedBody (c :: r) buf =
      (if c = quoteChar then .ok (buf, r)
      else if c = bslashChar then
        match r with
        | [] => .error .unclosedString
        | e :: r₂ =>
          if e = quoteChar ∨ e = bslashChar then lexQuotedBody r₂ (buf ++ [e])
          else if e = 'n' then lexQuotedBody r₂ (buf ++ [nlChar])
          else if e = 'r' then lexQuotedBody r₂ (buf ++ [crChar])
          else if '0' ≤ e ∧ e ≤ '3' then
            match r₂ with
            | b₁ :: b₂ :: r₃ =>
              if ('0' ≤ b₁ ∧ b₁ ≤ '7') ∧ ('0' ≤ b₂ ∧ b₂ ≤ '7') then
                lexQuotedBody r₃
                  (buf ++ [Char.ofNat
                    ((e.toNat - 48) * 64 + (b₁.toNat - 48) * 8 +
                      (b₂.toNat - 48))])
              else .error .unknownEscape
            | _ => .error .unknownEscape
          else .error .unknownEscape
      else lexQuotedBody r (buf ++ [c])) := by
  rw [lexQuotedBody.eq_def]

theorem lexQuotedBody_escapeBody (s : List Char) : ∀ (buf rest : List Char),
    lexQuotedBody (escapeBody s ++ quoteChar :: rest) buf =
      .ok (buf ++ s, rest) := by
  induction s with
  | nil =>
    intro buf rest
    rw [escapeBody, List.nil_append, lexQuotedBody_cons, if_pos rfl]
    simp
  | cons c t ih =>
    intro buf rest
    by_cases hspec : c = quoteChar ∨ c = bslashChar
    · rw [escapeBody, if_pos hspec, List.cons_append, List.cons_append,
        lexQuotedBody_cons]
      rw [if_neg (by decide), if_pos rfl]
      have hih := ih (buf ++ [c]) rest
      simp [hspec, hih]
    · push_neg at hspec
      rw [escapeBody, if_neg (by tauto : ¬(c = quoteChar ∨ c = bslashChar)),
        List.singleton_append, List.cons_append, lexQuotedBody_cons,
        if_neg hspec.1, if_neg hspec.2, ih (buf ++ [c]) rest]
      simp

theorem lex_quoted (s rest : List Char) :
    lex (quoteChar :: (escapeBody s ++ quoteChar :: rest)) =
      .ok (.str s, rest) := by
  rw [lex, skip_ws_cons_not_ws (by decide), lexCore,
    if_neg (by decide), if_neg (by decide), if_pos rfl,
    lexQuotedBody_escapeBody s [] rest]
  simp [Except.map]

theorem strict_not_special {c : Char} (h : is_alnum_strict c = true) :
    c ≠ quoteChar ∧ c ≠ bslashChar := by
  constructor <;> intro rfl0 <;> rw [rfl0] at h <;> cases h

theorem escapeBody_eq_self (s : List Char)
    (h : ∀ c ∈ s, is_alnum_strict c = true) : escapeBody s = s := by
  induction s with
  | nil => rfl
  | cons c t ih =>
    have hc := strict_not_special (h c (List.mem_cons_self c t))
    rw [escapeBody, if_neg (by tauto), List.singleton_append,
      ih (fun x hx => h x (List.mem_cons_of_mem c hx))]

theorem strict_is_alnum {c : Char} (h : is_alnum_strict c = true) :
    is_alnum c = true := by
  simp only [is_alnum_strict, Bool.and_eq_true] at h
  exact h.1

/-! ## Lemmas: atom classification of serialized strings -/

theorem parseF64core_all_digits (ds : List Char) (hne : ds ≠ [])
    (hdig : ∀ c ∈ ds, c.isDigit = true) :
    parseF64core ds = some ((natVal ds : ℚ) * (10 : ℚ) ^ ((0 : Int) - (0 : Int))) := by
  have hsplit : splitMantExp ds = (ds, none) :=
    splitMantExp_no_e ds (fun c hc => digit_ne_e (hdig c hc))
  have htake : ds.takeWhile Char.isDigit = ds := by
    rw [List.takeWhile_eq_self_iff]
    exact hdig
  have hdrop : ds.dropWhile Char.isDigit = [] := by
    rw [List.dropWhile_eq_nil_iff]
    exact fun c hc => hdig c hc
  simp only [parseF64core, hsplit, parseMantissa, htake, hdrop]
  rw [if_neg (by simp [List.isEmpty_iff, hne])]
  simp

theorem parseI64_f64Accepts (s : List Char) (n : Int)
    (h : parseI64 s = some n) : f64Accepts s = true := by
  cases s with
  | nil => cases h
  | cons c r =>
    rw [parseI64] at h
    by_cases hm : c = '-'
    · rw [if_pos hm] at h
      simp only [parseI64core, Option.bind_eq_some] at h
      obtain ⟨m, hm₂, -⟩ := h
      have hr : r ≠ [] ∧ ∀ x ∈ r, x.isDigit = true := by
        by_cases hre : r.isEmpty
        · rw [parseNatDigits, if_pos hre] at hm₂; cases hm₂
        · rw [parseNatDigits, if_neg hre] at hm₂
          by_cases hall : r.all Char.isDigit
          · exact ⟨by simpa [List.isEmpty_iff] using hre,
              by simpa [List.all_eq_true] using hall⟩
          · rw [if_neg hall] at hm₂; cases hm₂
      rw [f64Accepts]
      subst hm
      have : parseF64val ('-' :: r) =
          (parseF64core r).map fun q => cond true (-q) q := by
        rw [parseF64val, splitSign, if_pos rfl]
      rw [this, parseF64core_all_digits r hr.1 hr.2]
      simp
    · rw [if_neg hm] at h
      by_cases hp : c = '+'
      · rw [if_pos hp] at h
        simp only [parseI64core, Option.bind_eq_some] at h
        obtain ⟨m, hm₂, -⟩ := h
        have hr : r ≠ [] ∧ ∀ x ∈ r, x.isDigit = true := by
          by_cases hre : r.isEmpty
          · rw [parseNatDigits, if_pos hre] at hm₂; cases hm₂
          · rw [parseNatDigits, if_neg hre] at hm₂
            by_cases hall : r.all Char.isDigit
            · exact ⟨by simpa [List.isEmpty_iff] using hre,
                by simpa [List.all_eq_true] using hall⟩
            · rw [if_neg hall] at hm₂; cases hm₂
        rw [f64Accepts]
        subst hp
        have : parseF64val ('+' :: r) =
            (parseF64core r).map fun q => cond false (-q) q := by
          rw [parseF64val, splitSign, if_neg (by decide), if_pos rfl]
        rw [this, parseF64core_all_digits r hr.1 hr.2]
        simp
      · rw [if_neg hp] at h
        simp only [parseI64core, Option.bind_eq_some] at h
        obtain ⟨m, hm₂, -⟩ := h
        have hr : ∀ x ∈ c :: r, x.isDigit = true := by
          by_cases hall : (c :: r).all Char.isDigit
          · simpa [List.all_eq_true] using hall
          · rw [parseNatDigits, if_neg (by simp), if_neg hall] at hm₂
            cases hm₂
        rw [f64Accepts]
        have : parseF64val (c :: r) =
            (parseF64core (c :: r)).map fun q => cond false (-q) q := by
          rw [parseF64val, splitSign, if_neg hm, if_neg hp]
        rw [this, parseF64core_all_digits (c :: r) (by simp) hr]
        simp

theorem parseF64val_f64Accepts (s : List Char) (q : ℚ)
    (h : parseF64val s = some q) : f64Accepts s = true := by
  rw [f64Accepts, h]
  simp

theorem parse_atom_not_accepted (s : List Char)
    (h : f64Accepts s = false) : parse_atom s = .str s := by
  rw [parse_atom]
  by_cases hnum : numeric_ok s
  · rw [if_pos hnum]
    cases hi : parseI64 s with
    | some n => rw [parseI64_f64Accepts s n hi] at h; cases h
    | none =>
      cases hf : parseF64val s with
      | some q => rw [parseF64val_f64Accepts s q hf] at h; cases h
      | none =>
        rw [f64Accepts] at h
        simp only [Bool.or_eq_false_iff] at h
        simp [h.1]
  · rw [if_neg hnum]

theorem parseRec_succ_lex_str (g : Nat) (x : List Char) (s r : List Char)
    (h : lex x = .ok (.str s, r)) :
    parseRec (g + 1) x = .ok (.str s, r) := by
  rw [parseRec, h]

theorem parseRec_succ_lex_atom (g : Nat) (x : List Char) (a r : List Char)
    (h : lex x = .ok (.atom a, r)) :
    parseRec (g + 1) x = .ok (parse_atom a, r) := by
  rw [parseRec, h]

theorem parseRec_escape (s rest : List Char) (fuel : Nat) (hfuel : 1 ≤ fuel)
    (hrest : headNotAlnum rest) :
    parseRec fuel (escape_string s ++ rest) = .ok (.str s, rest) := by
  obtain ⟨g, rfl⟩ : ∃ g, fuel = g + 1 := ⟨fuel - 1, by omega⟩
  rw [escape_string]
  by_cases hbare : (!s.isEmpty && s.all is_alnum_strict) = true
  · have hne : s ≠ [] := by
      rcases Bool.and_eq_true _ _ |>.mp hbare with ⟨h₁, -⟩
      simpa [List.isEmpty_iff] using h₁
    have hstrict : ∀ c ∈ s, is_alnum_strict c = true := by
      rcases Bool.and_eq_true _ _ |>.mp hbare with ⟨-, h₂⟩
      simpa [List.all_eq_true] using h₂
    rw [if_pos hbare]
    by_cases hacc : f64Accepts s = true
    · rw [if_pos hacc]
      have hsh : (quoteChar :: (s ++ [quoteChar])) ++ rest =
          quoteChar :: (escapeBody s ++ quoteChar :: rest) := by
        rw [escapeBody_eq_self s hstrict]
        simp
      rw [hsh, parseRec_succ_lex_str g _ s rest (lex_quoted s rest)]
    · rw [if_neg hacc]
      rw [parseRec_succ_lex_atom g _ s rest
        (lex_atom s rest hne (fun c hc => strict_is_alnum (hstrict c hc)) hrest)]
      rw [parse_atom_not_accepted s (by simpa using hacc)]
  · rw [if_neg hbare]
    have hsh : (quoteChar :: (escapeBody s ++ [quoteChar])) ++ rest =
        quoteChar :: (escapeBody s ++ quoteChar :: rest) := by
      simp
    rw [hsh, parseRec_succ_lex_str g _ s rest (lex_quoted s rest)]

/-! ## Lemmas: parser-produced floats are decimal -/

theorem dvd_ten_pow (d k : Nat) (h : d ∣ 10 ^ k) : d ∣ 10 ^ d := by
  induction d using Nat.strong_induction_on generalizing k with
  | _ d ih =>
    rcases Nat.eq_zero_or_pos d with rfl | hd0
    · exact absurd (Nat.eq_zero_of_zero_dvd h) (by positivity)
    · rcases Nat.lt_or_ge d 2 with hd1 | hd2
      · have hd : d = 1 := by omega
        subst hd
        exact one_dvd _
      · by_cases h2 : 2 ∣ d
        · obtain ⟨d₂, rfl⟩ := h2
          have hd₂1 : 1 ≤ d₂ := by omega
          cases k with
          | zero =>
            simp only [pow_zero] at h
            have := Nat.le_of_dvd (by omega) h
            omega
          | succ k₂ =>
            have hstep : d₂ ∣ 5 * 10 ^ k₂ := by
              have h10 : (10 : ℕ) ^ (k₂ + 1) = 2 * (5 * 10 ^ k₂) := by ring
              rw [h10] at h
              exact (mul_dvd_mul_iff_left (by norm_num : (2 : ℕ) ≠ 0)).mp h
            have hnext : d₂ ∣ 10 ^ (k₂ + 1) :=
              hstep.trans ⟨2, by ring⟩
            have ihd := ih d₂ (by omega) (k₂ + 1) hnext
            have ha : 2 * d₂ ∣ 2 * 10 ^ d₂ := mul_dvd_mul_left 2 ihd
            have hb : (2 : ℕ) * 10 ^ d₂ ∣ 10 ^ (d₂ + 1) := ⟨5, by ring⟩
            have hc : (10 : ℕ) ^ (d₂ + 1) ∣ 10 ^ (2 * d₂) :=
              pow_dvd_pow 10 (by omega)
            exact ha.trans (hb.trans hc)
        · by_cases h5 : 5 ∣ d
          · obtain ⟨d₂, rfl⟩ := h5
            have hd₂1 : 1 ≤ d₂ := by omega
            cases k with
            | zero =>
              simp only [pow_zero] at h
              have := Nat.le_of_dvd (by omega) h
              omega
            | succ k₂ =>
              have hstep : d₂ ∣ 2 * 10 ^ k₂ := by
                have h10 : (10 : ℕ) ^ (k₂ + 1) = 5 * (2 * 10 ^ k₂) := by ring
                rw [h10] at h
                exact (mul_dvd_mul_iff_left (by norm_num : (5 : ℕ) ≠ 0)).mp h
              have hnext : d₂ ∣ 10 ^ (k₂ + 1) :=
                hstep.trans ⟨5, by ring⟩
              have ihd := ih d₂ (by omega) (k₂ + 1) hnext
              have ha : 5 * d₂ ∣ 5 * 10 ^ d₂ := mul_dvd_mul_left 5 ihd
              have hb : (5 : ℕ) * 10 ^ d₂ ∣ 10 ^ (d₂ + 1) := ⟨2, by ring⟩
              have hc : (10 : ℕ) ^ (d₂ + 1) ∣ 10 ^ (5 * d₂) :=
                pow_dvd_pow 10 (by omega)
              exact ha.trans (hb.trans hc)
          · have c2 : Nat.Coprime d 2 :=
              ((Nat.Prime.coprime_iff_not_dvd Nat.prime_two).mpr h2).symm
            have c5 : Nat.Coprime d 5 :=
              ((Nat.Prime.coprime_iff_not_dvd Nat.prime_five).mpr h5).symm
            have hcop : Nat.Coprime d 10 := by
              have : (10 : ℕ) = 2 * 5 := by norm_num
              rw [this]
              exact Nat.Coprime.mul_right c2 c5
            have hgcd : Nat.gcd d (10 ^ k) = 1 := Nat.Coprime.pow_right k hcop
            have hd1 : d ∣ 1 := hgcd ▸ Nat.dvd_gcd dvd_rfl h
            have := Nat.le_of_dvd (by omega) hd1
            omega

theorem ratSci_den_dvd (m : Nat) (z : Int) :
    ((m : ℚ) * (10 : ℚ) ^ z).den ∣ 10 ^ ((m : ℚ) * (10 : ℚ) ^ z).den := by
  rcases z with n | n
  · have hcast : ((m : ℚ) * (10 : ℚ) ^ (Int.ofNat n)) = ((m * 10 ^ n : ℕ) : ℚ) := by
      rw [show (Int.ofNat n) = (n : ℤ) from rfl, zpow_natCast]
      push_cast
      ring
    rw [hcast, Rat.den_natCast]
    exact one_dvd _
  · have hform : ((m : ℚ) * (10 : ℚ) ^ (Int.negSucc n)) =
        Rat.divInt (m : ℤ) (((10 ^ (n + 1) : ℕ) : ℤ)) := by
      rw [Rat.divInt_eq_div, zpow_negSucc]
      push_cast
      rw [div_eq_mul_inv]
    rw [hform]
    have hdvd : ((Rat.divInt (m : ℤ) (((10 ^ (n + 1) : ℕ) : ℤ))).den : ℤ) ∣
        ((10 ^ (n + 1) : ℕ) : ℤ) := Rat.den_dvd _ _
    have hnat : (Rat.divInt (m : ℤ) (((10 ^ (n + 1) : ℕ) : ℤ))).den ∣
        10 ^ (n + 1) := by
      exact_mod_cast hdvd
    exact dvd_ten_pow _ _ hnat

theorem parseF64core_den_dvd (s : List Char) (q : ℚ)
    (h : parseF64core s = some q) : q.den ∣ 10 ^ q.den := by
  rcases hsp : splitMantExp s with ⟨mant, expPart⟩
  simp only [parseF64core, hsp] at h
  rcases hm : parseMantissa mant with - | ⟨mval, flen⟩ <;> rw [hm] at h
  · rcases expPart with - | es <;> simp at h
  · rcases he : (match expPart with
        | none => some (0 : Int)
        | some es => parseExp es) with - | e <;> rw [he] at h
    · simp at h
    · simp only [Option.some.injEq] at h
      rw [← h]
      exact ratSci_den_dvd mval (e - flen)

theorem parseF64val_den_dvd (s : List Char) (q : ℚ)
    (h : parseF64val s = some q) : q.den ∣ 10 ^ q.den := by
  rcases hsp : splitSign s with ⟨neg, s₁⟩
  simp only [parseF64val, hsp, Option.map_eq_some'] at h
  obtain ⟨q₀, hcore, hq⟩ := h
  have hden := parseF64core_den_dvd s₁ q₀ hcore
  cases neg with
  | false =>
    simp only [cond_false] at hq
    rw [← hq]
    exact hden
  | true =>
    simp only [cond_true] at hq
    rw [← hq, Rat.den_neg_eq_den]
    exact hden

theorem parseI64core_bounds (neg : Bool) (ds : List Char) (n : Int)
    (h : parseI64core neg ds = some n) : i64Min ≤ n ∧ n ≤ i64Max := by
  simp only [parseI64core, Option.bind_eq_some] at h
  obtain ⟨m, -, hif⟩ := h
  split at hif
  · next hrange =>
    rw [Option.some.injEq] at hif
    subst hif
    exact hrange
  · cases hif

theorem parseI64_bounds (s : List Char) (n : Int)
    (h : parseI64 s = some n) : i64Min ≤ n ∧ n ≤ i64Max := by
  cases s with
  | nil => cases h
  | cons c r =>
    rw [parseI64] at h
    by_cases hm : c = '-'
    · rw [if_pos hm] at h
      exact parseI64core_bounds _ _ _ h
    · rw [if_neg hm] at h
      by_cases hp : c = '+'
      · rw [if_pos hp] at h
        exact parseI64core_bounds _ _ _ h
      · rw [if_neg hp] at h
        exact parseI64core_bounds _ _ _ h

theorem parsedWF_parse_atom (a : List Char) :
    parsedWF (parse_atom a) = true := by
  rw [parse_atom]
  by_cases hnum : numeric_ok a = true
  · rw [if_pos hnum]
    cases hi : parseI64 a with
    | some n =>
      have := parseI64_bounds a n hi
      simp [parsedWF, this]
    | none =>
      cases hf : parseF64val a with
      | some q =>
        have := parseF64val_den_dvd a q hf
        simp [parsedWF, this]
      | none =>
        show parsedWF
            (if isInfNan (splitSign a).2 then
              if (splitSign a).2.map Char.toLower = ['n', 'a', 'n'] then
                Plist.nanF
              else Plist.infF (splitSign a).1
            else Plist.str a) = true
        split
        · split <;> rfl
        · rfl
  · rw [if_neg hnum]
    rfl

theorem parsedWFPairs_insertKey (m : List (List Char × Plist))
    (k : List Char) (v : Plist) (hm : parsedWFPairs m = true)
    (hv : parsedWF v = true) : parsedWFPairs (insertKey m k v) = true := by
  induction m with
  | nil => simp [insertKey, parsedWFPairs, hv]
  | cons hd t ih =>
    obtain ⟨k₀, v₀⟩ := hd
    rw [parsedWFPairs, Bool.and_eq_true] at hm
    rw [insertKey]
    by_cases h₁ : keyLt k k₀
    · rw [if_pos h₁]
      simp [parsedWFPairs, hv, hm.1, hm.2]
    · rw [if_neg h₁]
      by_cases h₂ : k = k₀
      · rw [if_pos h₂]
        simp [parsedWFPairs, hv, hm.2]
      · rw [if_neg h₂]
        simp [parsedWFPairs, hm.1, ih hm.2]

theorem parsedWFList_append (acc : List Plist) (v : Plist)
    (ha : parsedWFList acc = true) (hv : parsedWF v = true) :
    parsedWFList (acc ++ [v]) = true := by
  induction acc with
  | nil => simp [parsedWFList, hv]
  | cons w t ih =>
    rw [parsedWFList, Bool.and_eq_true] at ha
    rw [List.cons_append, parsedWFList, Bool.and_eq_true]
    exact ⟨ha.1, ih ha.2⟩

theorem parse_wf_aux (fuel : Nat) :
    (∀ s v r, parseRec fuel s = .ok (v, r) → parsedWF v = true) ∧
    (∀ s acc v r, parseDictLoop fuel s acc = .ok (v, r) →
      sortedKeysB acc = true → parsedWFPairs acc = true →
      parsedWF v = true) ∧
    (∀ s acc v r, parseArrayLoop fuel s acc = .ok (v, r) →
      parsedWFList acc = true → parsedWF v = true) := by
  induction fuel with
  | zero =>
    refine ⟨?_, ?_, ?_⟩
    · intro s v r h
      rw [parseRec] at h
      cases h
    · intro s acc v r h
      rw [parseDictLoop] at h
      cases h
    · intro s acc v r h
      rw [parseArrayLoop] at h
      cases h
  | succ g ih =>
    obtain ⟨ihR, ihD, ihA⟩ := ih
    refine ⟨?_, ?_, ?_⟩
    · intro s v r h
      rw [parseRec] at h
      cases hlex : lex s with
      | error e =>
        simp only [hlex] at h
        exact Except.noConfusion h
      | ok tr =>
        obtain ⟨t, r₂⟩ := tr
        simp only [hlex] at h
        cases t with
        | atom a =>
          simp only [Except.ok.injEq, Prod.mk.injEq] at h
          rw [← h.1]
          exact parsedWF_parse_atom a
        | str a =>
          simp only [Except.ok.injEq, Prod.mk.injEq] at h
          rw [← h.1]
          rfl
        | openBrace => exact ihD r₂ [] v r h rfl rfl
        | openParen =>
          cases hexp : expectTok r₂ ')' with
          | some r₃ =>
            simp only [hexp, Except.ok.injEq, Prod.mk.injEq] at h
            rw [← h.1]
            rfl
          | none =>
            simp only [hexp] at h
            exact ihA r₂ [] v r h rfl
        | eof => exact Except.noConfusion h
    · intro s acc v r h hs hp
      rw [parseDictLoop] at h
      cases hexp : expectTok s cbraceChar with
      | some r₂ =>
        simp only [hexp, Except.ok.injEq, Prod.mk.injEq] at h
        rw [← h.1]
        simp [parsedWF, hs, hp]
      | none =>
        simp only [hexp] at h
        cases hlex : lex s with
        | error e =>
          simp only [hlex] at h
          exact Except.noConfusion h
        | ok tr =>
          obtain ⟨kt, s₂⟩ := tr
          simp only [hlex] at h
          cases htis : tryIntoString kt with
          | error e =>
            simp only [htis] at h
            exact Except.noConfusion h
          | ok k =>
            simp only [htis] at h
            cases hexp₂ : expectTok s₂ '=' with
            | none =>
              simp only [hexp₂] at h
              exact Except.noConfusion h
            | some s₃ =>
              simp only [hexp₂] at h
              cases hrec : parseRec g s₃ with
              | error e =>
                simp only [hrec] at h
                exact Except.noConfusion h
              | ok wr =>
                obtain ⟨w, s₄⟩ := wr
                simp only [hrec] at h
                cases hexp₃ : expectTok s₄ ';' with
                | none =>
                  simp only [hexp₃] at h
                  exact Except.noConfusion h
                | some s₅ =>
                  simp only [hexp₃] at h
                  exact ihD s₅ (insertKey acc k w) v r h
                    (insertKey_sorted acc k w hs)
                    (parsedWFPairs_insertKey acc k w hp
                      (ihR s₃ w s₄ hrec))
    · intro s acc v r h ha
      rw [parseArrayLoop] at h
      cases hrec : parseRec g s with
      | error e =>
        simp only [hrec] at h
        exact Except.noConfusion h
      | ok wr =>
        obtain ⟨w, s₂⟩ := wr
        simp only [hrec] at h
        have hw := ihR s w s₂ hrec
        cases hexp : expectTok s₂ ')' with
        | some r₂ =>
          simp only [hexp, Except.ok.injEq, Prod.mk.injEq] at h
          rw [← h.1]
          have := parsedWFList_append acc w ha hw
          simpa [parsedWF] using this
        | none =>
          simp only [hexp] at h
          cases hexp₂ : expectTok s₂ ',' with
          | none =>
            simp only [hexp₂] at h
            exact Except.noConfusion h
          | some s₃ =>
            simp only [hexp₂] at h
            exact ihA s₃ (acc ++ [w]) v r h (parsedWFList_append acc w ha hw)

theorem parse_parsedWF (s : List Char) (v : Plist)
    (h : Plist.parse s = .ok v) : parsedWF v = true := by
  rw [Plist.parse] at h
  cases hp : parseRec (2 * s.length + 2) s with
  | error e => rw [hp] at h; cases h
  | ok vr =>
    obtain ⟨w, r⟩ := vr
    rw [hp] at h
    simp only [Except.map, Except.ok.injEq] at h
    rw [← h]
    exact (parse_wf_aux (2 * s.length + 2)).1 s w r hp

/-! ## Lemmas: shapes of serialized output -/

theorem intToChars_ne_nil (n : Int) : intToChars n ≠ [] := by
  rw [intToChars]
  split
  · simp
  · exact natToChars_ne_nil _

theorem intToChars_alnum (n : Int) :
    ∀ c ∈ intToChars n, is_alnum c = true := by
  rw [intToChars]
  split
  · intro c hc
    rcases List.mem_cons.mp hc with rfl | hc₂
    · decide
    · exact digit_is_alnum (natToChars_all_digits _ c hc₂)
  · intro c hc
    exact digit_is_alnum (natToChars_all_digits _ c hc)

theorem escape_string_head (s : List Char) :
    ∃ c t, escape_string s = c :: t ∧
      (is_alnum c = true ∨ c = quoteChar) := by
  rw [escape_string]
  by_cases hbare : (!s.isEmpty && s.all is_alnum_strict) = true
  · rw [if_pos hbare]
    have hne : s ≠ [] := by
      rcases Bool.and_eq_true _ _ |>.mp hbare with ⟨h₁, -⟩
      simpa [List.isEmpty_iff] using h₁
    have hstrict : ∀ c ∈ s, is_alnum_strict c = true := by
      rcases Bool.and_eq_true _ _ |>.mp hbare with ⟨-, h₂⟩
      simpa [List.all_eq_true] using h₂
    by_cases hacc : f64Accepts s = true
    · rw [if_pos hacc]
      exact ⟨quoteChar, s ++ [quoteChar], rfl, Or.inr rfl⟩
    · rw [if_neg hacc]
      obtain ⟨c, t, rfl⟩ := List.exists_cons_of_ne_nil hne
      exact ⟨c, t, rfl,
        Or.inl (strict_is_alnum (hstrict c (List.mem_cons_self c t)))⟩
  · rw [if_neg hbare]
    exact ⟨quoteChar, escapeBody s ++ [quoteChar], rfl, Or.inr rfl⟩

theorem pushToString_head (v : Plist) :
    ∃ c t, pushToString v = c :: t ∧
      (is_alnum c = true ∨ c = quoteChar ∨ c = '(' ∨ c = obraceChar) := by
  cases v with
  | dict d => exact ⟨obraceChar, _, rfl, Or.inr (Or.inr (Or.inr rfl))⟩
  | arr a => exact ⟨'(', _, rfl, Or.inr (Or.inr (Or.inl rfl))⟩
  | str s =>
    obtain ⟨c, t, h, hc⟩ := escape_string_head s
    exact ⟨c, t, h, hc.imp id Or.inl⟩
  | int n =>
    obtain ⟨c, t, h⟩ := List.exists_cons_of_ne_nil (intToChars_ne_nil n)
    exact ⟨c, t, h, Or.inl (intToChars_alnum n c (h ▸ List.mem_cons_self c t))⟩
  | float q =>
    by_cases hden : q.den = 1
    · rw [show pushToString (.float q) = displayFloat q from rfl, displayFloat,
        if_pos hden]
      obtain ⟨c, t, h⟩ := List.exists_cons_of_ne_nil (intToChars_ne_nil q.num)
      exact ⟨c, t, h, Or.inl (intToChars_alnum q.num c (h ▸ List.mem_cons_self c t))⟩
    · obtain ⟨c, t, h⟩ := List.exists_cons_of_ne_nil (displayFloat_ne_nil q hden)
      exact ⟨c, t, h,
        Or.inl (displayFloat_alnum q hden c (h ▸ List.mem_cons_self c t))⟩
  | nanF => exact ⟨'N', _, rfl, Or.inl (by decide)⟩
  | infF neg =>
    cases neg with
    | false => exact ⟨'i', _, rfl, Or.inl (by decide)⟩
    | true => exact ⟨'-', _, rfl, Or.inl (by decide)⟩

theorem serial_head_not_ws {c : Char}
    (h : is_alnum c = true ∨ c = quoteChar ∨ c = '(' ∨ c = obraceChar) :
    is_ascii_whitespace c = false := by
  rcases h with h | rfl | rfl | rfl
  · exact alnum_not_ws h
  · decide
  · decide
  · decide

theorem expectTok_ws_cons {c : Char} (h : is_ascii_whitespace c = true)
    (s : List Char) (d : Char) : expectTok (c :: s) d = expectTok s d := by
  rw [expectTok, expectTok, skip_ws_cons_ws h]

theorem expectTok_head {c : Char} (h : is_ascii_whitespace c = false)
    (s : List Char) (d : Char) :
    expectTok (c :: s) d = if c = d then some s else none := by
  rw [expectTok, skip_ws_cons_not_ws h]

theorem parseRec_ws_cons (g : Nat) {c : Char}
    (hc : is_ascii_whitespace c = true) (s : List Char) :
    parseRec (g + 1) (c :: s) = parseRec (g + 1) s := by
  have hl : lex (c :: s) = lex s := by
    rw [lex, lex, skip_ws_cons_ws hc]
  rw [parseRec, parseRec, hl]

theorem lex_escape (k X : List Char) (hX : headNotAlnum X) :
    ∃ tok, lex (escape_string k ++ X) = .ok (tok, X) ∧
      tryIntoString tok = .ok k := by
  rw [escape_string]
  by_cases hbare : (!k.isEmpty && k.all is_alnum_strict) = true
  · have hne : k ≠ [] := by
      rcases Bool.and_eq_true _ _ |>.mp hbare with ⟨h₁, -⟩
      simpa [List.isEmpty_iff] using h₁
    have hstrict : ∀ c ∈ k, is_alnum_strict c = true := by
      rcases Bool.and_eq_true _ _ |>.mp hbare with ⟨-, h₂⟩
      simpa [List.all_eq_true] using h₂
    rw [if_pos hbare]
    by_cases hacc : f64Accepts k = true
    · rw [if_pos hacc]
      refine ⟨.str k, ?_, rfl⟩
      have hsh : (quoteChar :: (k ++ [quoteChar])) ++ X =
          quoteChar :: (escapeBody k ++ quoteChar :: X) := by
        rw [escapeBody_eq_self k hstrict]
        simp
      rw [hsh]
      exact lex_quoted k X
    · rw [if_neg hacc]
      exact ⟨.atom k, lex_atom k X hne
        (fun c hc => strict_is_alnum (hstrict c hc)) hX, rfl⟩
  · rw [if_neg hbare]
    refine ⟨.str k, ?_, rfl⟩
    have hsh : (quoteChar :: (escapeBody k ++ [quoteChar])) ++ X =
        quoteChar :: (escapeBody k ++ quoteChar :: X) := by
      simp
    rw [hsh]
    exact lex_quoted k X

theorem lex_obrace (y : List Char) :
    lex (obraceChar :: y) = .ok (.openBrace, y) := by
  rw [lex, skip_ws_cons_not_ws (by decide), lexCore, if_pos rfl]

theorem lex_oparen (y : List Char) :
    lex ('(' :: y) = .ok (.openParen, y) := by
  rw [lex, skip_ws_cons_not_ws (by decide), lexCore, if_neg (by decide),
    if_pos rfl]

theorem parseRec_succ_openBrace (g : Nat) (x r : List Char)
    (h : lex x = .ok (.openBrace, r)) :
    parseRec (g + 1) x = parseDictLoop g r [] := by
  rw [parseRec, h]

theorem parseRec_succ_openParen (g : Nat) (x r : List Char)
    (h : lex x = .ok (.openParen, r)) :
    parseRec (g + 1) x =
      (match expectTok r ')' with
      | some r₂ => .ok (.arr [], r₂)
      | none => parseArrayLoop g r []) := by
  rw [parseRec, h]

/-- Every serialized `Plist` value has positive size. -/
theorem plist_sizeOf_pos (v : Plist) : 0 < sizeOf v := by
  cases v <;> simp_arith

/-- Every list has positive size. -/
theorem list_sizeOf_pos {α : Type} [SizeOf α] (l : List α) : 0 < sizeOf l := by
  cases l <;> simp_arith

/-- Combined round-trip induction: parsing the canonical serialization of a
well-formed value (and the corresponding dictionary-pair and array-element
loops) recovers the value.  Stated for all values of size at most `n` so the
three statements can be proved together by strong induction on `n`. -/
theorem parseSerAux (n : Nat) :
    (∀ v : Plist, sizeOf v ≤ n → parsedWF v = true → noIntFloat v = true →
      ∀ rest : List Char, headNotAlnum rest → ∀ fuel : Nat,
        2 * (pushToString v).length + 2 ≤ fuel →
        parseRec fuel (pushToString v ++ rest) = .ok (v, rest)) ∧
    (∀ entries : List (List Char × Plist), sizeOf entries ≤ n →
      parsedWFPairs entries = true → noIntFloatPairs entries = true →
      ∀ (acc : List (List Char × Plist)) (rest : List Char) (fuel : Nat),
        2 * (pushPairs entries).length + 4 ≤ fuel →
        parseDictLoop fuel
            (nlChar :: (pushPairs entries ++ cbraceChar :: rest)) acc =
          .ok (.dict (entries.foldl (fun m kv => insertKey m kv.1 kv.2) acc),
            rest)) ∧
    (∀ (v : Plist) (tl : List Plist), sizeOf v + sizeOf tl ≤ n →
      parsedWF v = true ∧ parsedWFList tl = true →
      noIntFloat v = true ∧ noIntFloatList tl = true →
      ∀ (acc : List Plist) (rest : List Char) (fuel : Nat),
        2 * ((pushToString v).length +
          (pushArrayItems tl false).length) + 4 ≤ fuel →
        parseArrayLoop fuel (nlChar :: (pushToString v ++
            (pushArrayItems tl false ++ nlChar :: ')' :: rest))) acc =
          .ok (.arr (acc ++ v :: tl), rest)) := by
  induction n using Nat.strong_induction_on with
  | _ n ih =>
  refine ⟨?_, ?_, ?_⟩
  · intro v hsz hwf hni rest hrest fuel hfuel
    obtain ⟨g, rfl⟩ : ∃ g, fuel = g + 1 := ⟨fuel - 1, by omega⟩
    cases v with
    | str s => exact parseRec_escape s rest (g + 1) (by omega) hrest
    | int m =>
      have hb : i64Min ≤ m ∧ m ≤ i64Max := by
        simpa [parsedWF] using hwf
      show parseRec (g + 1) (intToChars m ++ rest) = .ok (.int m, rest)
      rw [parseRec_succ_lex_atom g _ (intToChars m) rest
        (lex_atom (intToChars m) rest (intToChars_ne_nil m)
          (intToChars_alnum m) hrest)]
      rw [parse_atom_intToChars m hb.1 hb.2]
    | float q =>
      have hden : q.den ≠ 1 := by
        simpa [noIntFloat] using hni
      have hdvd : q.den ∣ 10 ^ q.den := by
        simpa [parsedWF] using hwf
      show parseRec (g + 1) (displayFloat q ++ rest) = .ok (.float q, rest)
      rw [parseRec_succ_lex_atom g _ (displayFloat q) rest
        (lex_atom (displayFloat q) rest (displayFloat_ne_nil q hden)
          (displayFloat_alnum q hden) hrest)]
      rw [parse_atom_displayFloat q hden hdvd]
    | nanF =>
      show parseRec (g + 1) (['N', 'a', 'N'] ++ rest) = .ok (.nanF, rest)
      rw [parseRec_succ_lex_atom g _ ['N', 'a', 'N'] rest
        (lex_atom ['N', 'a', 'N'] rest (by decide) (by decide) hrest)]
      rfl
    | infF neg =>
      cases neg with
      | false =>
        show parseRec (g + 1) (['i', 'n', 'f'] ++ rest) =
          .ok (.infF false, rest)
        rw [parseRec_succ_lex_atom g _ ['i', 'n', 'f'] rest
          (lex_atom ['i', 'n', 'f'] rest (by decide) (by decide) hrest)]
        rfl
      | true =>
        show parseRec (g + 1) (['-', 'i', 'n', 'f'] ++ rest) =
          .ok (.infF true, rest)
        rw [parseRec_succ_lex_atom g _ ['-', 'i', 'n', 'f'] rest
          (lex_atom ['-', 'i', 'n', 'f'] rest (by decide) (by decide) hrest)]
        rfl
    | dict d =>
      have hszd : sizeOf d < n := by
        have h := Plist.dict.sizeOf_spec d
        omega
      have hs : sortedKeysB d = true := by
        rw [parsedWF, Bool.and_eq_true] at hwf
        exact hwf.1
      have hp : parsedWFPairs d = true := by
        rw [parsedWF, Bool.and_eq_true] at hwf
        exact hwf.2
      have hnp : noIntFloatPairs d = true := by
        rw [noIntFloat] at hni
        exact hni
      have hshape : pushToString (.dict d) ++ rest =
          obraceChar :: (nlChar :: (pushPairs d ++ cbraceChar :: rest)) := by
        rw [pushToString]
        simp
      have hlen : (pushToString (Plist.dict d)).length =
          (pushPairs d).length + 3 := by
        rw [pushToString]
        simp
      rw [hshape, parseRec_succ_openBrace g _ _ (lex_obrace _)]
      have := (ih (sizeOf d) hszd).2.1 d (le_refl _) hp hnp [] rest g
        (by rw [hlen] at hfuel; omega)
      rw [this]
      rw [show d.foldl (fun m kv => insertKey m kv.1 kv.2) [] = buildMap d
        from rfl, buildMap_eq_self d hs]
    | arr a =>
      cases a with
      | nil =>
        have hshape : pushToString (.arr []) ++ rest =
            '(' :: (nlChar :: ')' :: rest) := by
          rw [pushToString]
          simp [pushArrayItems]
        rw [hshape, parseRec_succ_openParen g _ _ (lex_oparen _)]
        rw [expectTok_ws_cons (by decide), expectTok_head (by decide),
          if_pos rfl]
      | cons w tl =>
        have hszw : sizeOf w + sizeOf tl < n := by
          have h1 := Plist.arr.sizeOf_spec (w :: tl)
          have h2 := List.cons.sizeOf_spec w tl
          omega
        have hw : parsedWF w = true ∧ parsedWFList tl = true := by
          rw [parsedWF, parsedWFList, Bool.and_eq_true] at hwf
          exact hwf
        have hnw : noIntFloat w = true ∧ noIntFloatList tl = true := by
          rw [noIntFloat, noIntFloatList, Bool.and_eq_true] at hni
          exact hni
        have hshape : pushToString (.arr (w :: tl)) ++ rest =
            '(' :: (nlChar :: (pushToString w ++
              (pushArrayItems tl false ++ nlChar :: ')' :: rest))) := by
          rw [pushToString, pushArrayItems]
          simp
        have hlen : (pushToString (Plist.arr (w :: tl))).length =
            (pushToString w).length + (pushArrayItems tl false).length
              + 4 := by
          rw [pushToString, pushArrayItems]
          simp
          omega
        rw [hshape, parseRec_succ_openParen g _ _ (lex_oparen _)]
        obtain ⟨c, t, hct, hc⟩ := pushToString_head w
        have hexp : expectTok (nlChar :: (pushToString w ++
            (pushArrayItems tl false ++ nlChar :: ')' :: rest))) ')' =
            none := by
          rw [expectTok_ws_cons (by decide), hct, List.cons_append,
            expectTok_head (serial_head_not_ws hc)]
          rw [if_neg]
          rcases hc with h | h | h | h
          · exact alnum_ne h (by decide)
          · rw [h]; decide
          · rw [h]; decide
          · rw [h]; decide
        rw [hexp]
        have := (ih (sizeOf w + sizeOf tl) hszw).2.2 w tl (le_refl _)
          hw hnw [] rest g (by rw [hlen] at hfuel; omega)
        rw [List.nil_append] at this
        exact this
  · intro entries hsz hwf hni acc rest fuel hfuel
    obtain ⟨g, rfl⟩ : ∃ g, fuel = g + 1 := ⟨fuel - 1, by omega⟩
    cases entries with
    | nil =>
      rw [pushPairs, List.nil_append, parseDictLoop,
        expectTok_ws_cons (by decide), expectTok_head (by decide),
        if_pos rfl]
      rfl
    | cons hd tl =>
      obtain ⟨k, w⟩ := hd
      have hszkw : sizeOf w < n ∧ sizeOf tl < n := by
        have h1 := List.cons.sizeOf_spec (k, w) tl
        have h2 := Prod.mk.sizeOf_spec k w
        omega
      have hw : parsedWF w = true := by
        rw [parsedWFPairs, Bool.and_eq_true] at hwf
        exact hwf.1
      have hwtl : parsedWFPairs tl = true := by
        rw [parsedWFPairs, Bool.and_eq_true] at hwf
        exact hwf.2
      have hnw : noIntFloat w = true := by
        rw [noIntFloatPairs, Bool.and_eq_true] at hni
        exact hni.1
      have hntl : noIntFloatPairs tl = true := by
        rw [noIntFloatPairs, Bool.and_eq_true] at hni
        exact hni.2
      have hlen : (pushPairs ((k, w) :: tl)).length =
          (escape_string k).length + (pushToString w).length +
            (pushPairs tl).length + 5 := by
        rw [pushPairs]
        simp
        omega
      rw [hlen] at hfuel
      have hshape : nlChar ::
          (pushPairs ((k, w) :: tl) ++ cbraceChar :: rest) =
          nlChar :: (escape_string k ++ (' ' :: '=' :: ' ' ::
            (pushToString w ++ (';' :: nlChar ::
              (pushPairs tl ++ cbraceChar :: rest))))) := by
        rw [pushPairs]
        simp
      obtain ⟨c, t, hct, hc⟩ := escape_string_head k
      have hcnws : is_ascii_whitespace c = false := by
        rcases hc with h | h
        · exact alnum_not_ws h
        · rw [h]; decide
      have hexpBrace : expectTok (nlChar :: (escape_string k ++
          (' ' :: '=' :: ' ' :: (pushToString w ++ (';' :: nlChar ::
            (pushPairs tl ++ cbraceChar :: rest)))))) cbraceChar =
          none := by
        rw [expectTok_ws_cons (by decide), hct, List.cons_append,
          expectTok_head hcnws, if_neg]
        rcases hc with h | h
        · exact alnum_ne h (by decide)
        · rw [h]; decide
      have hXnotalnum : headNotAlnum (' ' :: '=' :: ' ' ::
          (pushToString w ++ (';' :: nlChar ::
            (pushPairs tl ++ cbraceChar :: rest)))) :=
        headNotAlnum_cons (by decide) _
      obtain ⟨tok, hlexk, htok⟩ := lex_escape k _ hXnotalnum
      have hlexfull : lex (nlChar :: (escape_string k ++
          (' ' :: '=' :: ' ' :: (pushToString w ++ (';' :: nlChar ::
            (pushPairs tl ++ cbraceChar :: rest)))))) =
          .ok (tok, ' ' :: '=' :: ' ' ::
          (pushToString w ++ (';' :: nlChar ::
            (pushPairs tl ++ cbraceChar :: rest)))) := by
        rw [lex, skip_ws_cons_ws (by decide), ← lex, hlexk]
      have hexpEq : expectTok (' ' :: '=' :: ' ' ::
          (pushToString w ++ (';' :: nlChar ::
            (pushPairs tl ++ cbraceChar :: rest)))) '=' =
          some (' ' :: (pushToString w ++ (';' :: nlChar ::
            (pushPairs tl ++ cbraceChar :: rest)))) := by
        rw [expectTok_ws_cons (by decide), expectTok_head (by decide),
          if_pos rfl]
      obtain ⟨g₂, rfl⟩ : ∃ g₂, g = g₂ + 1 := ⟨g - 1, by omega⟩
      have hrecw : parseRec (g₂ + 1) (' ' :: (pushToString w ++
          (';' :: nlChar :: (pushPairs tl ++ cbraceChar :: rest)))) =
          .ok (w, ';' :: nlChar ::
            (pushPairs tl ++ cbraceChar :: rest)) := by
        rw [parseRec_ws_cons g₂ (by decide)]
        exact (ih (sizeOf w) hszkw.1).1 w (le_refl _) hw hnw _
          (headNotAlnum_cons (by decide) _) (g₂ + 1) (by omega)
      have hexpSemi : expectTok (';' :: nlChar ::
          (pushPairs tl ++ cbraceChar :: rest)) ';' =
          some (nlChar :: (pushPairs tl ++ cbraceChar :: rest)) := by
        rw [expectTok_head (by decide), if_pos rfl]
      rw [hshape, parseDictLoop]
      simp only [hexpBrace, hlexfull, htok, hexpEq, hrecw, hexpSemi]
      have := (ih (sizeOf tl) hszkw.2).2.1 tl (le_refl _) hwtl hntl
        (insertKey acc k w) rest (g₂ + 1) (by omega)
      rw [this]
      rfl
  · intro v tl hsz hwf hni acc rest fuel hfuel
    obtain ⟨g, rfl⟩ : ∃ g, fuel = g + 1 := ⟨fuel - 1, by omega⟩
    obtain ⟨g₂, rfl⟩ : ∃ g₂, g = g₂ + 1 := ⟨g - 1, by omega⟩
    have hszv : sizeOf v < n := by
      have h1 := list_sizeOf_pos tl
      omega
    have hrestTl : headNotAlnum (pushArrayItems tl false ++
        nlChar :: ')' :: rest) := by
      cases tl with
      | nil => exact headNotAlnum_cons (by decide) _
      | cons u tl₂ =>
        rw [pushArrayItems]
        exact headNotAlnum_cons (by decide) _
    have hrecv : parseRec (g₂ + 1) (nlChar :: (pushToString v ++
        (pushArrayItems tl false ++ nlChar :: ')' :: rest))) =
        .ok (v, pushArrayItems tl false ++ nlChar :: ')' :: rest) := by
      rw [parseRec_ws_cons g₂ (by decide)]
      exact (ih (sizeOf v) hszv).1 v (le_refl _) hwf.1 hni.1 _ hrestTl
        (g₂ + 1) (by omega)
    rw [parseArrayLoop]
    simp only [hrecv]
    cases tl with
    | nil =>
      rw [pushArrayItems, List.nil_append,
        expectTok_ws_cons (by decide), expectTok_head (by decide),
        if_pos rfl]
    | cons u tl₂ =>
      have hszu : sizeOf u + sizeOf tl₂ < n := by
        have h1 := List.cons.sizeOf_spec u tl₂
        have h2 := plist_sizeOf_pos v
        omega
      have hu : parsedWF u = true ∧ parsedWFList tl₂ = true := by
        have := hwf.2
        rw [parsedWFList, Bool.and_eq_true] at this
        exact this
      have hnu : noIntFloat u = true ∧ noIntFloatList tl₂ = true := by
        have := hni.2
        rw [noIntFloatList, Bool.and_eq_true] at this
        exact this
      have hlen : (pushArrayItems (u :: tl₂) false).length =
          (pushToString u).length + (pushArrayItems tl₂ false).length
            + 2 := by
        rw [pushArrayItems]
        simp
      have hshape : pushArrayItems (u :: tl₂) false ++
          nlChar :: ')' :: rest =
          ',' :: nlChar :: (pushToString u ++
            (pushArrayItems tl₂ false ++ nlChar :: ')' :: rest)) := by
        rw [pushArrayItems]
        simp
      rw [hshape]
      have hexpParen : expectTok (',' :: nlChar :: (pushToString u ++
          (pushArrayItems tl₂ false ++ nlChar :: ')' :: rest))) ')' =
          none := by
        rw [expectTok_head (by decide), if_neg (by decide)]
      have hexpComma : expectTok (',' :: nlChar :: (pushToString u ++
          (pushArrayItems tl₂ false ++ nlChar :: ')' :: rest))) ',' =
          some (nlChar :: (pushToString u ++
            (pushArrayItems tl₂ false ++ nlChar :: ')' :: rest))) := by
        rw [expectTok_head (by decide), if_pos rfl]
      simp only [hexpParen, hexpComma]
      have := (ih (sizeOf u + sizeOf tl₂) hszu).2.2 u tl₂ (le_refl _)
        hu hnu (acc ++ [v]) rest (g₂ + 1) (by rw [hlen] at hfuel; omega)
      rw [this]
      simp

/-- Parsing the canonical serialization of a well-formed value with no
integer-valued floats returns the value, leaving the trailing context
untouched. -/
theorem parseSer (v : Plist) (hwf : parsedWF v = true)
    (hni : noIntFloat v = true) (rest : List Char)
    (hrest : headNotAlnum rest) (fuel : Nat)
    (hfuel : 2 * (pushToString v).length + 2 ≤ fuel) :
    parseRec fuel (pushToString v ++ rest) = .ok (v, rest) :=
  (parseSerAux (sizeOf v)).1 v (le_refl _) hwf hni rest hrest fuel hfuel

/-! ## Canonicalization is the identity on parser outputs -/

/-- Canonicalization is the identity on parser-well-formed values, pair
lists and element lists of size at most `n`, by strong induction on `n`. -/
theorem canonAux (n : Nat) :
    (∀ v : Plist, sizeOf v ≤ n → parsedWF v = true → canonicalize v = v) ∧
    (∀ ps : List (List Char × Plist), sizeOf ps ≤ n →
      parsedWFPairs ps = true → canonPairs ps = ps) ∧
    (∀ l : List Plist, sizeOf l ≤ n → parsedWFList l = true →
      canonList l = l) := by
  induction n using Nat.strong_induction_on with
  | _ n ih =>
  refine ⟨?_, ?_, ?_⟩
  · intro v hsz hwf
    cases v with
    | str s => rfl
    | int m => rfl
    | float q => rfl
    | nanF => rfl
    | infF b => rfl
    | dict d =>
      have hszd : sizeOf d < n := by
        have h := Plist.dict.sizeOf_spec d
        omega
      rw [parsedWF, Bool.and_eq_true] at hwf
      rw [canonicalize, (ih (sizeOf d) hszd).2.1 d (le_refl _) hwf.2,
        buildMap_eq_self d hwf.1]
    | arr a =>
      have hsza : sizeOf a < n := by
        have h := Plist.arr.sizeOf_spec a
        omega
      rw [parsedWF] at hwf
      rw [canonicalize, (ih (sizeOf a) hsza).2.2 a (le_refl _) hwf]
  · intro ps hsz hwf
    cases ps with
    | nil => rfl
    | cons hd t =>
      obtain ⟨k, w⟩ := hd
      have hs : sizeOf w < n ∧ sizeOf t < n := by
        have h1 := List.cons.sizeOf_spec (k, w) t
        have h2 := Prod.mk.sizeOf_spec k w
        omega
      rw [parsedWFPairs, Bool.and_eq_true] at hwf
      rw [canonPairs, (ih (sizeOf w) hs.1).1 w (le_refl _) hwf.1,
        (ih (sizeOf t) hs.2).2.1 t (le_refl _) hwf.2]
  · intro l hsz hwf
    cases l with
    | nil => rfl
    | cons w t =>
      have hs : sizeOf w < n ∧ sizeOf t < n := by
        have h1 := List.cons.sizeOf_spec w t
        omega
      rw [parsedWFList, Bool.and_eq_true] at hwf
      rw [canonList, (ih (sizeOf w) hs.1).1 w (le_refl _) hwf.1,
        (ih (sizeOf t) hs.2).2.2 t (le_refl _) hwf.2]

/-- `canonicalize` is the identity on any value the parser produces. -/
theorem canonicalize_eq_of_parsedWF (v : Plist) (h : parsedWF v = true) :
    canonicalize v = v :=
  (canonAux (sizeOf v)).1 v (le_refl _) h

/-! ## The dictionary loop against the textual pair sequence (last wins) -/

theorem findq_append {α : Type} (p : α → Bool) (l₁ l₂ : List α) :
    (l₁ ++ l₂).find? p =
      match l₁.find? p with
      | some a => some a
      | none => l₂.find? p := by
  induction l₁ with
  | nil => rfl
  | cons a t ih =>
    by_cases h : p a
    · simp [List.find?, h]
    · rw [Bool.not_eq_true] at h
      simp [List.find?, h, ih]

theorem lastBinding_cons (k₁ : List Char) (v₁ : Plist)
    (t : List (List Char × Plist)) (k : List Char) :
    lastBinding ((k₁, v₁) :: t) k =
      match lastBinding t k with
      | some v => some v
      | none => if k₁ = k then some v₁ else none := by
  rw [lastBinding, lastBinding, List.reverse_cons, findq_append]
  cases t.reverse.find? fun kv => decide (kv.1 = k) with
  | some a => rfl
  | none =>
    by_cases h : k₁ = k
    · simp [List.find?, h]
    · simp [List.find?, h]

/-- Looking up a key after folding the scanned pairs into the map with
`insertKey`: the last textual binding wins, else the accumulator's. -/
theorem lookupKey_foldl_insert (ps : List (List Char × Plist))
    (acc : List (List Char × Plist)) (k : List Char) :
    lookupKey (ps.foldl (fun m kv => insertKey m kv.1 kv.2) acc) k =
      match lastBinding ps k with
      | some v => some v
      | none => lookupKey acc k := by
  induction ps generalizing acc with
  | nil => rfl
  | cons hd t ih =>
    obtain ⟨k₁, v₁⟩ := hd
    rw [List.foldl_cons, ih, lastBinding_cons]
    cases hlb : lastBinding t k with
    | some v => rfl
    | none =>
      show lookupKey (insertKey acc k₁ v₁) k = _
      rw [lookupKey_insertKey]
      by_cases h : k = k₁
      · rw [if_pos h, if_pos h.symm]
      · rw [if_neg h, if_neg (fun hh => h hh.symm)]

/-- The pair loop is accumulator-polymorphic: running it with
accumulator `acc` prepends `acc` to the pairs it scans. -/
theorem parsePairsLoop_acc (fuel : Nat) :
    ∀ (s : List Char) (acc : List (List Char × Plist)),
    parsePairsLoop fuel s acc =
      (parsePairsLoop fuel s []).map (fun pr => (acc ++ pr.1, pr.2)) := by
  induction fuel with
  | zero => intro s acc; rfl
  | succ fuel ih =>
    intro s acc
    rw [parsePairsLoop, parsePairsLoop]
    split
    · simp [Except.map]
    · split
      next => rfl
      next keyTok s₂ hlex =>
        split
        next => rfl
        next k htk =>
          split
          next => rfl
          next s₃ heqEq =>
            split
            next => rfl
            next v s₄ hrec =>
              split
              next s₅ hsemi =>
                rw [List.nil_append, ih s₅ (acc ++ [(k, v)]),
                  ih s₅ [(k, v)]]
                cases parsePairsLoop fuel s₅ [] with
                | error e => rfl
                | ok pr => simp [Except.map]
              next => rfl

/-- The dictionary loop is the pair loop followed by folding the pairs
into the accumulated map with `insertKey`, exactly the `HashMap::insert`
per scanned `key = value ;` pair the code performs. -/
theorem parseDictLoop_eq_pairs (fuel : Nat) :
    ∀ (s : List Char) (acc : List (List Char × Plist)),
    parseDictLoop fuel s acc =
      (parsePairsLoop fuel s []).map
        (fun pr =>
          (Plist.dict (pr.1.foldl (fun m kv => insertKey m kv.1 kv.2) acc),
            pr.2)) := by
  induction fuel with
  | zero => intro s acc; rfl
  | succ fuel ih =>
    intro s acc
    rw [parseDictLoop, parsePairsLoop]
    split
    · rfl
    · split
      next => rfl
      next keyTok s₂ hlex =>
        split
        next => rfl
        next k htk =>
          split
          next => rfl
          next s₃ heqEq =>
            split
            next => rfl
            next v s₄ hrec =>
              split
              next s₅ hsemi =>
                rw [List.nil_append, ih s₅ (insertKey acc k v),
                  parsePairsLoop_acc fuel s₅ [(k, v)]]
                cases parsePairsLoop fuel s₅ [] with
                | error e => rfl
                | ok pr => simp [Except.map, List.singleton_append]
              next => rfl

/-- Reflexivity of the derived `PartialEq` on NaN-free values of size at
most `n`, by strong induction on `n`.  (At a NaN it fails: IEEE equality
denies `NaN == NaN`.) -/
theorem plistEqReflAux (n : Nat) :
    (∀ v : Plist, sizeOf v ≤ n → noNanF v = true → plistEq v v = true) ∧
    (∀ ps : List (List Char × Plist), sizeOf ps ≤ n →
      noNanFPairs ps = true → plistEqPairs ps ps = true) ∧
    (∀ l : List Plist, sizeOf l ≤ n → noNanFList l = true →
      plistEqList l l = true) := by
  induction n using Nat.strong_induction_on with
  | _ n ih =>
  refine ⟨?_, ?_, ?_⟩
  · intro v hsz hnn
    cases v with
    | str s =>
      show decide (s = s) = true
      simp
    | int m =>
      show decide (m = m) = true
      simp
    | float q =>
      show decide (q = q) = true
      simp
    | nanF => exact Bool.noConfusion hnn
    | infF b =>
      show decide (b = b) = true
      simp
    | dict d =>
      have hszd : sizeOf d < n := by
        have h := Plist.dict.sizeOf_spec d
        omega
      rw [noNanF] at hnn
      show plistEqPairs d d = true
      exact (ih (sizeOf d) hszd).2.1 d (le_refl _) hnn
    | arr a =>
      have hsza : sizeOf a < n := by
        have h := Plist.arr.sizeOf_spec a
        omega
      rw [noNanF] at hnn
      show plistEqList a a = true
      exact (ih (sizeOf a) hsza).2.2 a (le_refl _) hnn
  · intro ps hsz hnn
    cases ps with
    | nil => rfl
    | cons hd t =>
      obtain ⟨k, w⟩ := hd
      have hs : sizeOf w < n ∧ sizeOf t < n := by
        have h1 := List.cons.sizeOf_spec (k, w) t
        have h2 := Prod.mk.sizeOf_spec k w
        omega
      rw [noNanFPairs, Bool.and_eq_true] at hnn
      show (decide (k = k) && plistEq w w && plistEqPairs t t) = true
      rw [(ih (sizeOf w) hs.1).1 w (le_refl _) hnn.1,
        (ih (sizeOf t) hs.2).2.1 t (le_refl _) hnn.2]
      simp
  · intro l hsz hnn
    cases l with
    | nil => rfl
    | cons w t =>
      have hs : sizeOf w < n ∧ sizeOf t < n := by
        have h1 := List.cons.sizeOf_spec w t
        omega
      rw [noNanFList, Bool.and_eq_true] at hnn
      show (plistEq w w && plistEqList t t) = true
      rw [(ih (sizeOf w) hs.1).1 w (le_refl _) hnn.1,
        (ih (sizeOf t) hs.2).2.2 t (le_refl _) hnn.2]
      rfl

/-- The derived `PartialEq` is reflexive exactly on NaN-free values. -/
theorem plistEq_refl_of_noNanF (v : Plist) (h : noNanF v = true) :
    plistEq v v = true :=
  (plistEqReflAux (sizeOf v)).1 v (le_refl _) h

/-! ## The claims -/

/-- C1 (counterexample): the input `2.0` parses as the float 2; the
float's canonical text is `2`, which re-parses as the integer 2, a
different value — the unconditional round trip `parse (to_text v) == v`
of the spec fails on integer-valued floats.  It also fails on NaN: the
input `nan` parses as a NaN float, whose canonical text `NaN` re-parses
as a NaN float again, but the derived `PartialEq` denies
`Float(NaN) == Float(NaN)`. -/
theorem claim_C1_counterexample :
    (Plist.parse ['2', '.', '0'] = .ok (.float 2) ∧
      Plist.toText (.float 2) = ['2'] ∧
      Plist.parse ['2'] = .ok (.int 2) ∧
      Plist.int 2 ≠ Plist.float 2) ∧
    (Plist.parse ['n', 'a', 'n'] = .ok .nanF ∧
      Plist.toText .nanF = ['N', 'a', 'N'] ∧
      Plist.parse ['N', 'a', 'N'] = .ok .nanF ∧
      plistEq .nanF .nanF = false) := by
  refine ⟨⟨?_, ?_, rfl, fun h => Plist.noConfusion h⟩, rfl, rfl, rfl, rfl⟩
  · have h : Plist.parse ['2', '.', '0'] =
        .ok (.float ((20 : ℚ) * (10 : ℚ) ^ ((0 : ℤ) - ((1 : ℕ) : ℤ)))) := rfl
    rw [h,
      show ((20 : ℚ) * (10 : ℚ) ^ ((0 : ℤ) - ((1 : ℕ) : ℤ))) = 2 by norm_num]
  · rw [Plist.toText, canonicalize, pushToString, displayFloat,
      if_pos (show Rat.den 2 = 1 from rfl)]
    show intToChars 2 = ['2']
    rw [intToChars, if_neg (by decide)]
    show natToChars 2 = ['2']
    rw [natToChars, dif_pos (by omega)]

/-- C1 (amended): for every value a successful parse produces that has
no integer-valued `Float` subvalue and no NaN subvalue, serializing it
to canonical text and parsing that text again returns a value the
program's derived `PartialEq` accepts as equal to it
(`parse (to_text v) == v`; signed infinities are fine, NaN breaks the
equality and integer-valued floats break the reparse). -/
theorem claim_C1_round_trip (s : List Char) (v : Plist)
    (h : Plist.parse s = .ok v) (hni : noIntFloat v = true)
    (hnn : noNanF v = true) :
    ∃ w, Plist.parse (Plist.toText v) = .ok w ∧ plistEq w v = true := by
  have hwf := parse_parsedWF s v h
  refine ⟨v, ?_, plistEq_refl_of_noNanF v hnn⟩
  rw [Plist.toText, canonicalize_eq_of_parsedWF v hwf, Plist.parse]
  have hp := parseSer v hwf hni [] headNotAlnum_nil
    (2 * (pushToString v).length + 2) (le_refl _)
  rw [List.append_nil] at hp
  rw [hp]
  rfl

/-- Witness for C1: the round trip at the parsed dictionary with one
key `a` bound to 1. -/
theorem claim_C1_witness :
    ∃ w, Plist.parse (Plist.toText (.dict [(['a'], .int 1)])) = .ok w ∧
      plistEq w (.dict [(['a'], .int 1)]) = true :=
  claim_C1_round_trip [obraceChar, 'a', ' ', '=', ' ', '1', ';', cbraceChar]
    (.dict [(['a'], .int 1)]) (by rfl) (by rfl) (by rfl)

/-- C2: generated decoding of a record with a rest field leaves every
undeclared key's binding unchanged in the captured rest map, and
generated encoding writes those bindings back verbatim merged with the
emitted fields: generically for the remove-declared-fields and
serialize-merge phases, and end to end for the one-declared-field
record `FooBarRest`. -/
theorem claim_C2 (declared : List (List Char))
    (fields : List (List Char × Option Plist))
    (m rest : List (List Char × Plist)) (r : FooBarRest) (k : List Char)
    (hdecl : k ∉ declared) (hfields : ∀ p ∈ fields, k ≠ p.1)
    (hdec : fooBarRestTryFrom m = .ok r) (hk : k ≠ ['f', 'o', 'o']) :
    lookupKey (removeFields declared m) k = lookupKey m k ∧
    lookupKey (serMerge rest fields) k = lookupKey rest k ∧
    lookupKey r.rest k = lookupKey m k ∧
    lookupKey (fooBarRestToPlist r) k = lookupKey m k := by
  have hrr : r.rest = (removeKey m ['f', 'o', 'o']).2 := by
    rw [fooBarRestTryFrom] at hdec
    split at hdec
    next p m₂ heq =>
      injection hdec with h2
      rw [← h2, heq]
    next => exact Except.noConfusion hdec
  refine ⟨lookupKey_removeFields_not_mem declared m k hdecl,
    lookupKey_serMerge_not_mem fields rest k hfields, ?_, ?_⟩
  · rw [hrr]
    exact lookupKey_removeKey_ne m ['f', 'o', 'o'] k hk
  · rw [fooBarRestToPlist, lookupKey_insertKey, if_neg hk, hrr]
    exact lookupKey_removeKey_ne m ['f', 'o', 'o'] k hk

/-- Witness for C2: decoding one declared key `foo` plus undeclared
`bar` and `baz` and encoding the record back reproduces both undeclared
bindings. -/
theorem claim_C2_witness :
    lookupKey (fooBarRestToPlist
        { foo := Plist.str ['x'],
          rest := [(['b', 'a', 'r'], Plist.int 1),
            (['b', 'a', 'z'], Plist.int 2)] }) ['b', 'a', 'r'] =
      some (Plist.int 1) ∧
    lookupKey (fooBarRestToPlist
        { foo := Plist.str ['x'],
          rest := [(['b', 'a', 'r'], Plist.int 1),
            (['b', 'a', 'z'], Plist.int 2)] }) ['b', 'a', 'z'] =
      some (Plist.int 2) :=
  ⟨((claim_C2 [['f', 'o', 'o']] []
      [(['b', 'a', 'r'], Plist.int 1), (['b', 'a', 'z'], Plist.int 2),
        (['f', 'o', 'o'], Plist.str ['x'])] []
      { foo := Plist.str ['x'],
        rest := [(['b', 'a', 'r'], Plist.int 1),
          (['b', 'a', 'z'], Plist.int 2)] } ['b', 'a', 'r']
      (by decide) (by simp) (by rfl) (by decide)).2.2.2).trans (by rfl),
    ((claim_C2 [['f', 'o', 'o']] []
      [(['b', 'a', 'r'], Plist.int 1), (['b', 'a', 'z'], Plist.int 2),
        (['f', 'o', 'o'], Plist.str ['x'])] []
      { foo := Plist.str ['x'],
        rest := [(['b', 'a', 'r'], Plist.int 1),
          (['b', 'a', 'z'], Plist.int 2)] } ['b', 'a', 'z']
      (by decide) (by simp) (by rfl) (by decide)).2.2.2).trans (by rfl)⟩

/-- C3: decoding a dictionary holding the declared key `foo` plus the
undeclared key `bar` into the restless record `FooBarNoRest` hits the
generated `assert!` and aborts the process, instead of returning the
`UnrecognisedFields` error the code's own test expects. -/
theorem claim_C3_assert_aborts :
    fooBarNoRestTryFrom
        [(['b', 'a', 'r'], .str ['d', 'e', 'f']),
          (['f', 'o', 'o'], .str ['a', 'b', 'c'])] = .panic ∧
    fooBarNoRestTryFrom
        [(['b', 'a', 'r'], .str ['d', 'e', 'f']),
          (['f', 'o', 'o'], .str ['a', 'b', 'c'])] ≠
      .err (.unrecognisedFields [['b', 'a', 'r']]) :=
  ⟨rfl, fun h => DecodeOutcome.noConfusion h⟩

/-- C4: atom classification follows the numeric-ambiguity rule: an
all-hex-uppercase atom that is not purely digits is a string, a
multi-character all-digit atom with a leading zero is a string, and
otherwise an integer then a float parse are attempted, as on the
examples `1AB`, `0123`, `0.5` and `-7`. -/
theorem claim_C4 :
    (∀ s : List Char, s ≠ [] → s.all is_hex_upper = true →
      s.all Char.isDigit = false → parse_atom s = .str s) ∧
    (∀ cs : List Char, cs ≠ [] → ('0' :: cs).all Char.isDigit = true →
      parse_atom ('0' :: cs) = .str ('0' :: cs)) ∧
    parse_atom ['1', 'A', 'B'] = .str ['1', 'A', 'B'] ∧
    parse_atom ['0', '1', '2', '3'] = .str ['0', '1', '2', '3'] ∧
    parse_atom ['0', '.', '5'] = .float (1 / 2) ∧
    parse_atom ['-', '7'] = .int (-7) := by
  refine ⟨?_, ?_, rfl, rfl, ?_, rfl⟩
  · intro s hne hhex hdig
    cases s with
    | nil => exact absurd rfl hne
    | cons c cs =>
      have hno : numeric_ok (c :: cs) = false := by
        rw [numeric_ok]
        simp [hhex, hdig]
      rw [parse_atom, hno]
      simp
  · intro cs hne hdig
    have hlen : cs.length + 1 > 1 := by
      cases cs with
      | nil => exact absurd rfl hne
      | cons a t => simp
    have hno : numeric_ok ('0' :: cs) = false := by
      rw [numeric_ok]
      simp [hdig, hlen]
    rw [parse_atom, hno]
    simp
  · have h : parse_atom ['0', '.', '5'] =
        .float ((5 : ℚ) * (10 : ℚ) ^ ((0 : ℤ) - ((1 : ℕ) : ℤ))) := rfl
    rw [h,
      show ((5 : ℚ) * (10 : ℚ) ^ ((0 : ℤ) - ((1 : ℕ) : ℤ))) = 1 / 2 by norm_num]

/-- C5: the serialized form of every string value re-parses as that
string value; in particular `escape_string` quotes the numeric-looking
`123`, and the quoted token re-parses as the string `123`, not the
integer 123. -/
theorem claim_C5 :
    (∀ s : List Char, Plist.parse (escape_string s) = .ok (.str s)) ∧
    escape_string ['1', '2', '3'] = [quoteChar, '1', '2', '3', quoteChar] ∧
    Plist.parse (escape_string ['1', '2', '3']) =
      .ok (.str ['1', '2', '3']) := by
  have huniv : ∀ s : List Char,
      Plist.parse (escape_string s) = .ok (.str s) := by
    intro s
    rw [Plist.parse]
    have hp := parseRec_escape s [] (2 * (escape_string s).length + 2)
      (by omega) headNotAlnum_nil
    rw [List.append_nil] at hp
    rw [hp]
    rfl
  exact ⟨huniv, rfl, huniv _⟩

/-- C6 (counterexample): the boolean conversion rejects the quoted
legacy forms: `String "1"` and `String "0"` are `WrongVariant` errors,
not accepted booleans. -/
theorem claim_C6_counterexample :
    boolTryFrom (.str ['1']) = .error .wrongVariant ∧
    boolTryFrom (.str ['0']) = .error .wrongVariant := ⟨rfl, rfl⟩

/-- C6 (amended): the boolean conversion goes through `as_i64` only:
`Integer` 0 and 1 convert, any other integer is `BadNumber`, and every
non-integer shape — strings included — is `WrongVariant`; serialization
emits `Integer` 0 or 1. -/
theorem claim_C6_amended :
    boolTryFrom (.int 0) = .ok false ∧
    boolTryFrom (.int 1) = .ok true ∧
    (∀ n : Int, n ≠ 0 → n ≠ 1 →
      boolTryFrom (.int n) = .error (.badNumber n)) ∧
    (∀ s : List Char, boolTryFrom (.str s) = .error .wrongVariant) ∧
    boolToPlist false = .int 0 ∧ boolToPlist true = .int 1 := by
  refine ⟨rfl, rfl, ?_, fun s => rfl, rfl, rfl⟩
  intro n h0 h1
  simp [boolTryFrom, Plist.as_i64, h0, h1]

/-- C7 (counterexample): the 16-bit conversion rejects numeric strings:
`String "7"` is a `WrongVariant` error, not 7. -/
theorem claim_C7_counterexample :
    u16TryFrom (.str ['7']) = .error .wrongVariant := rfl

/-- C7 (amended): only `Integer` converts to the 16-bit field: in-range
integers succeed, out-of-range integers report `OutOfBounds` carrying
the value (70000 included), and every other shape — numeric strings
included — is `WrongVariant`. -/
theorem claim_C7_amended :
    (∀ n : Int, 0 ≤ n → n ≤ 65535 → u16TryFrom (.int n) = .ok n) ∧
    (∀ n : Int, ¬(0 ≤ n ∧ n ≤ 65535) →
      u16TryFrom (.int n) = .error (.outOfBounds n)) ∧
    u16TryFrom (.int 70000) = .error (.outOfBounds 70000) ∧
    (∀ s : List Char, u16TryFrom (.str s) = .error .wrongVariant) := by
  refine ⟨?_, ?_, ?_, fun s => rfl⟩
  · intro n hn0 hn1
    rw [u16TryFrom, if_pos ⟨hn0, hn1⟩]
  · intro n h
    rw [u16TryFrom, if_neg h]
  · rw [u16TryFrom, if_neg (by norm_num)]

/-- C8 (counterexample): narrowing is not round-trip preserving: the
float `2 ^ (-60)` is nonzero but within `f64::EPSILON` of its rounding
0, so it serializes to `Integer 0`, which reads back as 0. -/
theorem claim_C8_counterexample :
    f64ToPlist (1 / 2 ^ 60) = .int 0 ∧
    Plist.as_f64 (Plist.int 0) = some 0 ∧
    (0 : ℚ) ≠ 1 / 2 ^ 60 := by
  refine ⟨?_, rfl, by norm_num⟩
  have hr : roundTiesAway (1 / 2 ^ 60) = 0 := by
    rw [roundTiesAway, if_pos (by norm_num)]
    norm_num
  rw [f64ToPlist, hr,
    if_pos (by push_cast; rw [abs_of_pos (by norm_num)]; norm_num [f64Epsilon]),
    i64Sat, if_neg (by norm_num [i64Min]), if_neg (by norm_num [i64Max])]

/-- C8 (amended): the serialize-then-widen round trip holds for exact
integer values up to `2 ^ 53` (narrowed to `Integer` and widened back to
the same number) and for every float the narrowing test does not fire
on (kept as `Float`). -/
theorem claim_C8_amended :
    (∀ n : Int, |(n : ℚ)| ≤ 2 ^ 53 →
      f64ToPlist (n : ℚ) = .int n ∧
      Plist.as_f64 (f64ToPlist (n : ℚ)) = some (n : ℚ)) ∧
    (∀ q : ℚ, ¬|q - (roundTiesAway q : ℚ)| < f64Epsilon →
      f64ToPlist q = .float q ∧
      Plist.as_f64 (f64ToPlist q) = some q) := by
  constructor
  · intro n hn
    have hr : roundTiesAway (n : ℚ) = n := by
      rw [roundTiesAway]
      by_cases h : (0 : ℚ) ≤ (n : ℚ)
      · rw [if_pos h, Int.floor_int_add]
        norm_num
      · rw [if_neg h]
        have h2 : -(n : ℚ) + 1 / 2 = ((-n : ℤ) : ℚ) + 1 / 2 := by
          push_cast
          ring
        rw [h2, Int.floor_int_add]
        norm_num
    have hb : -(2 ^ 53 : ℤ) ≤ n ∧ n ≤ 2 ^ 53 := by
      exact_mod_cast abs_le.mp hn
    have hb2 : -(9007199254740992 : ℤ) ≤ n ∧ n ≤ 9007199254740992 := by
      norm_num at hb
      exact hb
    have h1 : f64ToPlist (n : ℚ) = .int n := by
      rw [f64ToPlist, hr, if_pos (by simp [f64Epsilon]), i64Sat,
        if_neg (by norm_num [i64Min]; omega),
        if_neg (by norm_num [i64Max]; omega)]
    exact ⟨h1, by rw [h1]; rfl⟩
  · intro q h
    have h1 : f64ToPlist q = .float q := by
      rw [f64ToPlist, if_neg h]
    exact ⟨h1, by rw [h1]; rfl⟩

/-- C9: the transform with coefficients (-1, 0, 0, -1, 250, 657)
decomposes to scales (1, 1) and rotation 180 degrees, and the
decompose-then-recompose round trip reproduces all six coefficients to
within `1e-5`. -/
theorem claim_C9 :
    transform_struct_to_scale_and_rotation ⟨-1, 0, 0, -1, 250, 657⟩ =
      (1, 1, 180) ∧
    |(componentRoundTrip ⟨-1, 0, 0, -1, 250, 657⟩).x_scale - (-1)| <
      1 / 100000 ∧
    |(componentRoundTrip ⟨-1, 0, 0, -1, 250, 657⟩).xy_scale - 0| <
      1 / 100000 ∧
    |(componentRoundTrip ⟨-1, 0, 0, -1, 250, 657⟩).yx_scale - 0| <
      1 / 100000 ∧
    |(componentRoundTrip ⟨-1, 0, 0, -1, 250, 657⟩).y_scale - (-1)| <
      1 / 100000 ∧
    |(componentRoundTrip ⟨-1, 0, 0, -1, 250, 657⟩).x_offset - 250| <
      1 / 100000 ∧
    |(componentRoundTrip ⟨-1, 0, 0, -1, 250, 657⟩).y_offset - 657| <
      1 / 100000 := by
  have hat : atan2R 0 (-1) = Real.pi := by
    rw [atan2R, if_neg (by norm_num), if_pos (by norm_num)]
    norm_num [Real.arctan_zero]
  have hr0 : Real.pi * 180 / Real.pi = 180 := by
    rw [mul_comm, mul_div_assoc, div_self Real.pi_ne_zero, mul_one]
  have hdec : transform_struct_to_scale_and_rotation
      ⟨-1, 0, 0, -1, 250, 657⟩ = (1, 1, 180) := by
    rw [transform_struct_to_scale_and_rotation]
    simp only
    norm_num
    rw [hat, hr0]
    norm_num
  have hrad : (180 : ℝ) * (Real.pi / 180) = Real.pi := by ring
  have hm : affMul (affTranslate 250 657) (affMul (affRotate Real.pi)
      (affMul (affScale 1 1) (affSkew 0 0))) =
      ⟨-1, 0, 0, -1, 250, 657⟩ := by
    simp [affMul, affTranslate, affRotate, affScale, affSkew,
      Real.cos_pi, Real.sin_pi, Real.tan_zero]
  have hfpm1 : f64Precision5 (-1) = -1 := by
    rw [f64Precision5, roundAwayReal, if_neg (by norm_num)]
    norm_num
  have hfp0 : f64Precision5 0 = 0 := by
    rw [f64Precision5, roundAwayReal, if_pos (by norm_num)]
    norm_num
  have hfp250 : f64Precision5 250 = 250 := by
    rw [f64Precision5, roundAwayReal, if_pos (by norm_num)]
    norm_num
  have hfp657 : f64Precision5 657 = 657 := by
    rw [f64Precision5, roundAwayReal, if_pos (by norm_num)]
    norm_num
  have heq : componentRoundTrip ⟨-1, 0, 0, -1, 250, 657⟩ =
      ⟨-1, 0, 0, -1, 250, 657⟩ := by
    rw [componentRoundTrip]
    simp only [hdec]
    rw [recomposeTransform]
    simp only [hrad, hm]
    rw [hfpm1, hfp0, hfp250, hfp657]
  refine ⟨hdec, ?_, ?_, ?_, ?_, ?_, ?_⟩ <;> rw [heq] <;> norm_num

/-- C10: a dictionary text whose `key = value ;` pair loop succeeds
parses successfully — duplicate keys are not a parse error — and the
resulting dictionary binds every key to the value of its last
occurrence in the text. -/
theorem claim_C10 (s : List Char) (ps : List (List Char × Plist))
    (h : parsePairsOfDict s = .ok ps) :
    ∃ m, Plist.parse s = .ok (.dict m) ∧
      ∀ k, lookupKey m k = lastBinding ps k := by
  rw [parsePairsOfDict] at h
  split at h
  next r heq =>
    cases hpl : parsePairsLoop (2 * s.length + 1) r [] with
    | error e =>
      rw [hpl] at h
      exact Except.noConfusion h
    | ok pr =>
      obtain ⟨qs, rest⟩ := pr
      rw [hpl] at h
      have h2 : qs = ps := by
        simpa [Except.map] using h
      subst h2
      refine ⟨buildMap qs, ?_, ?_⟩
      · rw [Plist.parse,
          show 2 * s.length + 2 = (2 * s.length + 1) + 1 from rfl,
          parseRec_succ_openBrace (2 * s.length + 1) s r heq,
          parseDictLoop_eq_pairs (2 * s.length + 1) r [], hpl]
        rfl
      · intro k
        rw [show buildMap qs =
            qs.foldl (fun m kv => insertKey m kv.1 kv.2) [] from rfl,
          lookupKey_foldl_insert qs [] k]
        cases hlb : lastBinding qs k with
        | some v => rfl
        | none => rfl
  next =>
    exact Except.noConfusion h

/-- Witness for C10: the text with the duplicate key `a` bound to 1 and
then 2 parses, and `a` is bound to 2. -/
theorem claim_C10_witness :
    ∃ m, Plist.parse
        [obraceChar, 'a', '=', '1', ';', 'a', '=', '2', ';', cbraceChar] =
        .ok (.dict m) ∧
      ∀ k, lookupKey m k =
        lastBinding [(['a'], Plist.int 1), (['a'], Plist.int 2)] k :=
  claim_C10 [obraceChar, 'a', '=', '1', ';', 'a', '=', '2', ';', cbraceChar]
    [(['a'], Plist.int 1), (['a'], Plist.int 2)] (by rfl)
